import Mathlib

/-!
Shallow embedding of `src/source/lib/unstructured-text-masher.js`.

Documents are modelled as `List Char`.  JavaScript `indexOf`/`substring`
become explicit list scans (`take`/`drop`).  The SHA-1 digest is an external
collaborator of the library (the spec keeps the hashing primitive out of
scope), so every definition is parameterised by a fingerprint function
`fp : List Char → List Char`.

The two generator loops of `_getMashInfo` do not advance when the begin tag
(resp. the materialised end-tag pattern) is empty, so the scan can diverge.
The embedding therefore threads explicit fuel through both loops and returns
`none` when a loop would still be running after the fuel is spent; `some`
results coincide with the values the JavaScript code returns.
-/

set_option maxHeartbeats 1000000

namespace Masher

abbrev Str := List Char

/-- `FINGERPRINT_VALUE_IN_HEX_LENGTH` from the source. -/
def FINGERPRINT_VALUE_IN_HEX_LENGTH : Nat := 40

/-- `FINGERPRINT_PLACEHOLDER` from the source. -/
def FINGERPRINT_PLACEHOLDER : Str := "%fingerprint%".toList

/-- The `MashState` enumeration from the source. -/
inductive MashState where
  | Unmashed
  | BeginTagMissing
  | EndTagMissing
  | SourceTextTampered
  | FingerprintInvalid
  | Mashed
deriving DecidableEq, Repr

/-- A begin-tag occurrence as yielded by `beginTagOccurrenceIterator`. -/
structure Occ where
  index : Nat
  endIndex : Nat
deriving DecidableEq, Repr

/-- An end-tag occurrence as yielded by `endTagOccurrenceIterator`:
offsets plus the captured fingerprint group (`none` when the template has no
placeholder, modelling the JavaScript `undefined` capture). -/
structure EndOcc where
  index : Nat
  endIndex : Nat
  fingerprint : Option Str
deriving DecidableEq, Repr

/-- The mash-info record built by `createInfo`; absent fields are `none`,
modelling JavaScript `undefined`. -/
structure MashInfo where
  state : MashState
  beginTagIndex : Option Nat
  endOfBeginTagIndex : Option Nat
  endTagIndex : Option Nat
  endOfEndTagIndex : Option Nat
deriving DecidableEq, Repr

/-- `createInfo` from the source: project the offsets of the occurrences that
are present. -/
def mkInfo (state : MashState) (bo : Option Occ) (eo : Option EndOcc) : MashInfo :=
  ⟨state, bo.map (·.index), bo.map (·.endIndex), eo.map (·.index), eo.map (·.endIndex)⟩

/-- `pat` matches `doc` literally at position `i`. -/
def matchAt (doc pat : Str) (i : Nat) : Bool :=
  decide ((doc.drop i).take pat.length = pat)

/-- First position `j` in `[i, i + n)` satisfying `p`, scanning left to
right. -/
def scanFirst (p : Nat → Bool) : Nat → Nat → Option Nat
  | 0, _ => none
  | n + 1, i => if p i then some i else scanFirst p n (i + 1)

/-- JavaScript `doc.indexOf(pat, start)`: the first position `≥ start`
(clamped to the document length, as `indexOf` clamps `fromIndex`) where
`pat` occurs literally; `none` models the `-1` result. -/
def indexOfFrom (doc pat : Str) (start : Nat) : Option Nat :=
  scanFirst (fun i => decide (min start doc.length ≤ i) && matchAt doc pat i) (doc.length + 1) 0

/-- The end-tag search pattern: `escapeStringRegexp(endTag)` with the first
(escaped) placeholder occurrence replaced by the 40-hex-digit capture group.
Since every other character is escaped, the pattern is the literal text
around the placeholder; `hasFp = false` when the template has no placeholder
(then `pre` is the whole template matched literally and no group exists). -/
structure EndPat where
  pre : Str
  post : Str
  hasFp : Bool
deriving DecidableEq, Repr

/-- Build the end-tag pattern from the template, splitting at the first
placeholder occurrence exactly as `String.prototype.replace` does. -/
def mkEndPat (e : Str) : EndPat :=
  match indexOfFrom e FINGERPRINT_PLACEHOLDER 0 with
  | some j => ⟨e.take j, e.drop (j + FINGERPRINT_PLACEHOLDER.length), true⟩
  | none => ⟨e, [], false⟩

/-- The character class `[0-9a-fA-F]` of the capture group. -/
def isHexDigit (c : Char) : Bool :=
  (decide ('0' ≤ c) && decide (c ≤ '9')) ||
  (decide ('a' ≤ c) && decide (c ≤ 'f')) ||
  (decide ('A' ≤ c) && decide (c ≤ 'F'))

/-- Length of any match of the end-tag pattern (the capture group is exactly
40 characters wide, so all matches have the same length). -/
def endMatchLen (p : EndPat) : Nat :=
  if p.hasFp then p.pre.length + FINGERPRINT_VALUE_IN_HEX_LENGTH + p.post.length
  else p.pre.length

/-- The end-tag regular expression matches `doc` at position `i`. -/
def endMatchAt (p : EndPat) (doc : Str) (i : Nat) : Bool :=
  if p.hasFp then
    matchAt doc p.pre i &&
    decide (((doc.drop (i + p.pre.length)).take FINGERPRINT_VALUE_IN_HEX_LENGTH).length =
      FINGERPRINT_VALUE_IN_HEX_LENGTH) &&
    ((doc.drop (i + p.pre.length)).take FINGERPRINT_VALUE_IN_HEX_LENGTH).all isHexDigit &&
    matchAt doc p.post (i + p.pre.length + FINGERPRINT_VALUE_IN_HEX_LENGTH)
  else
    matchAt doc p.pre i

/-- The captured fingerprint group of a match at `i` (`none` without a
placeholder, modelling `match[1] === undefined`). -/
def endCapture (p : EndPat) (doc : Str) (i : Nat) : Option Str :=
  if p.hasFp then some ((doc.drop (i + p.pre.length)).take FINGERPRINT_VALUE_IN_HEX_LENGTH)
  else none

/-- `endTagRegExp.exec(destinationText.substring(start))`, expressed with
absolute offsets: the leftmost match position `≥ start`. -/
def endSearchFrom (p : EndPat) (doc : Str) (start : Nat) : Option Nat :=
  scanFirst (fun i => decide (min start doc.length ≤ i) && endMatchAt p doc i) (doc.length + 1) 0

/-- The mutable locals of `_getMashInfo`: the first begin-tag occurrence,
the first end-tag occurrence, and the first invalid state (initially
`Unmashed`). -/
structure ScanSt where
  firstBegin : Option Occ
  firstEnd : Option EndOcc
  firstInvalid : MashState
deriving DecidableEq, Repr

/-- Initial scan state. -/
def initSt : ScanSt := ⟨none, none, .Unmashed⟩

/-- `if (!firstBeginTagOccurrence) firstBeginTagOccurrence = occ`. -/
def recordBegin (st : ScanSt) (bo : Occ) : ScanSt :=
  { st with firstBegin := match st.firstBegin with | some x => some x | none => some bo }

/-- `if (!firstEndTagOccurrence) firstEndTagOccurrence = occ`. -/
def recordEnd (st : ScanSt) (eo : EndOcc) : ScanSt :=
  { st with firstEnd := match st.firstEnd with | some x => some x | none => some eo }

/-- `destinationText.substring(beginTagOccurrence.endIndex, endTagOccurrence.index)`
(the scan only reaches this with `endIndex ≤ index`). -/
def potentialText (doc : Str) (bo : Occ) (eo : EndOcc) : Str :=
  (doc.drop bo.endIndex).take (eo.index - bo.endIndex)

/-- `sourceTextTampered`: an expected source text was supplied and differs
from the candidate text. -/
def tamperedB (doc : Str) (expected : Option Str) (bo : Occ) (eo : EndOcc) : Bool :=
  match expected with
  | some s => decide (s ≠ potentialText doc bo eo)
  | none => false

/-- `fingerprintInvalid`: the captured group differs from the digest of the
candidate text (strict `!==`, so an absent capture is always invalid). -/
def fpInvalidB (doc : Str) (fp : Str → Str) (bo : Occ) (eo : EndOcc) : Bool :=
  decide (eo.fingerprint ≠ some (fp (potentialText doc bo eo)))

/-- The pair passes both validations. -/
def validB (doc : Str) (expected : Option Str) (fp : Str → Str) (bo : Occ) (eo : EndOcc) : Bool :=
  !tamperedB doc expected bo eo && !fpInvalidB doc fp bo eo

/-- Remember the first invalid state (tampered takes priority). -/
def recordInvalid (st : ScanSt) (tampered fpInvalid : Bool) : ScanSt :=
  if st.firstInvalid = .Unmashed then
    { st with firstInvalid :=
        if tampered then .SourceTextTampered
        else if fpInvalid then .FingerprintInvalid
        else .Unmashed }
  else st

/-- The trailing `if`/`else` block of `_getMashInfo`, reached when the nested
scan found no valid pair. -/
def finishScan (doc : Str) (p : EndPat) (st : ScanSt) : MashInfo :=
  match st.firstBegin with
  | none =>
    match endSearchFrom p doc 0 with
    | none => mkInfo .Unmashed none none
    | some i => mkInfo .BeginTagMissing none (some ⟨i, i + endMatchLen p, endCapture p doc i⟩)
  | some fb =>
    match st.firstEnd with
    | none => mkInfo .EndTagMissing (some fb) none
    | some fe => mkInfo st.firstInvalid (some fb) (some fe)

/-- The inner `for (endTagOccurrence of endTagOccurrenceIterator(...))` loop.
`Sum.inl eo` is the early `Mashed` return for the valid occurrence `eo`;
`Sum.inr st` is normal loop exit with the updated locals.  `none` means the
loop was still running when the fuel ran out (the pattern matched the empty
string and the iterator did not advance). -/
def innerF (doc : Str) (p : EndPat) (expected : Option Str) (fp : Str → Str) (bo : Occ) :
    Nat → Nat → ScanSt → Option (Sum EndOcc ScanSt)
  | 0, start, st =>
    match endSearchFrom p doc start with
    | none => some (Sum.inr st)
    | some _ => none
  | fuel + 1, start, st =>
    match endSearchFrom p doc start with
    | none => some (Sum.inr st)
    | some i =>
      let eo : EndOcc := ⟨i, i + endMatchLen p, endCapture p doc i⟩
      let st2 := recordInvalid (recordEnd st eo) (tamperedB doc expected bo eo)
        (fpInvalidB doc fp bo eo)
      if validB doc expected fp bo eo then some (Sum.inl eo)
      else innerF doc p expected fp bo fuel eo.endIndex st2

/-- The outer `for (beginTagOccurrence of beginTagOccurrenceIterator())` loop
of `_getMashInfo`.  `ofuel` bounds the outer iterations, `ifuel` each inner
scan; `none` means a loop would still be running (empty begin tag or empty
end-tag pattern). -/
def outerF (doc b : Str) (p : EndPat) (expected : Option Str) (fp : Str → Str) :
    Nat → Nat → Nat → ScanSt → Option MashInfo
  | 0, _, start, st =>
    match indexOfFrom doc b start with
    | none => some (finishScan doc p st)
    | some _ => none
  | ofuel + 1, ifuel, start, st =>
    match indexOfFrom doc b start with
    | none => some (finishScan doc p st)
    | some i =>
      let bo : Occ := ⟨i, i + b.length⟩
      let st1 := recordBegin st bo
      match innerF doc p expected fp bo ifuel bo.endIndex st1 with
      | none => none
      | some (Sum.inl eo) => some (mkInfo .Mashed (some bo) (some eo))
      | some (Sum.inr st2) => outerF doc b p expected fp ofuel ifuel bo.endIndex st2

/-- `_getMashInfo`, fuel-indexed. -/
def getMashInfoF (ofuel ifuel : Nat) (destinationText beginTag : Str)
    (sourceText : Option Str) (endTag : Str) (fp : Str → Str) : Option MashInfo :=
  outerF destinationText beginTag (mkEndPat endTag) sourceText fp ofuel ifuel 0 initSt

/-- Canonical fuel: both loops advance by at least one position per
iteration whenever the tags are nonempty, so `length + 1` iterations always
suffice. -/
def FUEL (doc : Str) : Nat := doc.length + 1

/-- `_getMashInfo` at canonical fuel. -/
def getMashInfo (destinationText beginTag : Str) (sourceText : Option Str)
    (endTag : Str) (fp : Str → Str) : Option MashInfo :=
  getMashInfoF (FUEL destinationText) (FUEL destinationText) destinationText beginTag
    sourceText endTag fp

/-- `endTag.replace(FINGERPRINT_PLACEHOLDER, digest)`: replace the first
placeholder occurrence (SHA-1 hex digests contain no `$`, so the
replacement string is literal). -/
def replaceFirst (s pat rep : Str) : Str :=
  match indexOfFrom s pat 0 with
  | none => s
  | some i => s.take i ++ rep ++ s.drop (i + pat.length)

/-- `_insertText` from the source. -/
def insertText (destinationText : Str) (insertionIndex : Nat)
    (beginTag sourceText endTag : Str) (fp : Str → Str) : Str :=
  destinationText.take insertionIndex ++ beginTag ++ sourceText ++
    replaceFirst endTag FINGERPRINT_PLACEHOLDER (fp sourceText) ++
    destinationText.drop insertionIndex

/-- `_appendText` from the source. -/
def appendText (destinationText : Str) (beginTag sourceText endTag : Str)
    (fp : Str → Str) : Str :=
  insertText destinationText destinationText.length beginTag sourceText endTag fp

/-- `mash`, fuel-indexed.  `none` covers a diverging scan and the
`assert(false)` on the unreachable `SourceTextTampered` branch, as well as
the (unreachable) accesses to absent info fields. -/
def mashF (ofuel ifuel : Nat) (destinationText beginTag sourceText endTag : Str)
    (fp : Str → Str) : Option Str :=
  (getMashInfoF ofuel ifuel destinationText beginTag none endTag fp).bind fun info =>
    match info.state with
    | .Unmashed => some (appendText destinationText beginTag sourceText endTag fp)
    | .BeginTagMissing =>
      match info.endOfEndTagIndex with
      | some i => some (insertText destinationText i beginTag sourceText endTag fp)
      | none => none
    | .EndTagMissing =>
      match info.beginTagIndex with
      | some i => some (insertText destinationText i beginTag sourceText endTag fp)
      | none => none
    | .FingerprintInvalid =>
      match info.beginTagIndex with
      | some i => some (insertText destinationText i beginTag sourceText endTag fp)
      | none => none
    | .SourceTextTampered => none
    | .Mashed =>
      match info.beginTagIndex, info.endOfEndTagIndex with
      | some bi, some ee =>
        some (insertText (destinationText.take bi ++ destinationText.drop ee) bi
          beginTag sourceText endTag fp)
      | _, _ => none

/-- `mash` at canonical fuel. -/
def mash (destinationText beginTag sourceText endTag : Str) (fp : Str → Str) : Option Str :=
  mashF (FUEL destinationText) (FUEL destinationText) destinationText beginTag sourceText
    endTag fp

/-- `textIsMashed`, fuel-indexed. -/
def textIsMashedF (ofuel ifuel : Nat) (destinationText beginTag sourceText endTag : Str)
    (fp : Str → Str) : Option Bool :=
  (getMashInfoF ofuel ifuel destinationText beginTag (some sourceText) endTag fp).map
    fun info => decide (info.state = .Mashed)

/-- `textIsMashed` at canonical fuel. -/
def textIsMashed (destinationText beginTag sourceText endTag : Str) (fp : Str → Str) :
    Option Bool :=
  textIsMashedF (FUEL destinationText) (FUEL destinationText) destinationText beginTag
    sourceText endTag fp

/-- The scan of `_getMashInfo` terminates (some fuel makes both loops
finish). -/
def MashTerminates (destinationText beginTag : Str) (sourceText : Option Str)
    (endTag : Str) (fp : Str → Str) : Prop :=
  ∃ ofuel ifuel,
    (getMashInfoF ofuel ifuel destinationText beginTag sourceText endTag fp).isSome

/-- All begin-tag occurrences yielded by `beginTagOccurrenceIterator` from
`start` on: `some` iff the generator is exhausted within `fuel` yields. -/
def beginOccsF (doc tag : Str) : Nat → Nat → Option (List Occ)
  | 0, start =>
    match indexOfFrom doc tag start with
    | none => some []
    | some _ => none
  | fuel + 1, start =>
    match indexOfFrom doc tag start with
    | none => some []
    | some i => (beginOccsF doc tag fuel (i + tag.length)).map (⟨i, i + tag.length⟩ :: ·)

/-- All end-tag occurrences yielded by `endTagOccurrenceIterator` from
`start` on. -/
def endOccsF (p : EndPat) (doc : Str) : Nat → Nat → Option (List EndOcc)
  | 0, start =>
    match endSearchFrom p doc start with
    | none => some []
    | some _ => none
  | fuel + 1, start =>
    match endSearchFrom p doc start with
    | none => some []
    | some i =>
      (endOccsF p doc fuel (i + endMatchLen p)).map
        (⟨i, i + endMatchLen p, endCapture p doc i⟩ :: ·)

/-- Pair every begin-tag occurrence with the end-tag occurrences after it. -/
def zipEnds (p : EndPat) (doc : Str) (ifuel : Nat) : List Occ → Option (List (Occ × List EndOcc))
  | [] => some []
  | bo :: rest =>
    (endOccsF p doc ifuel bo.endIndex).bind fun el =>
      (zipEnds p doc ifuel rest).map fun tl => (bo, el) :: tl

/-- The full nested enumeration: every begin-tag occurrence paired with the
list of end-tag occurrences after it, in scan order. -/
def pairsEnum (doc b e : Str) (ofuel ifuel : Nat) : Option (List (Occ × List EndOcc)) :=
  (beginOccsF doc b ofuel 0).bind (zipEnds (mkEndPat e) doc ifuel)

/-- The (begin, end) pairs in the order the nested loops consider them:
begin occurrences outer, end occurrences inner. -/
def flattenPairs (prs : List (Occ × List EndOcc)) : List (Occ × EndOcc) :=
  prs.flatMap fun q => q.2.map fun eo => (q.1, eo)

/-- Pure replay of the inner loop on an occurrence list. -/
def innerList (doc : Str) (expected : Option Str) (fp : Str → Str) (bo : Occ) :
    List EndOcc → ScanSt → Sum EndOcc ScanSt
  | [], st => Sum.inr st
  | eo :: rest, st =>
    let st2 := recordInvalid (recordEnd st eo) (tamperedB doc expected bo eo)
      (fpInvalidB doc fp bo eo)
    if validB doc expected fp bo eo then Sum.inl eo
    else innerList doc expected fp bo rest st2

/-- Pure replay of the outer loop on the nested enumeration. -/
def outerList (doc : Str) (p : EndPat) (expected : Option Str) (fp : Str → Str) :
    List (Occ × List EndOcc) → ScanSt → MashInfo
  | [], st => finishScan doc p st
  | (bo, el) :: rest, st =>
    match innerList doc expected fp bo el (recordBegin st bo) with
    | Sum.inl eo => mkInfo .Mashed (some bo) (some eo)
    | Sum.inr st2 => outerList doc p expected fp rest st2

/-! ### Specifications of the scanning primitives -/

theorem scanFirst_eq_some_iff {p : Nat → Bool} {n i j : Nat} :
    scanFirst p n i = some j ↔
      i ≤ j ∧ j < i + n ∧ p j = true ∧ ∀ k, i ≤ k → k < j → p k = false := by
  induction n generalizing i with
  | zero =>
    simp only [scanFirst]
    constructor
    · intro h; cases h
    · rintro ⟨h1, h2, -, -⟩; omega
  | succ n ih =>
    simp only [scanFirst]
    by_cases hpi : p i
    · rw [if_pos hpi]
      constructor
      · intro h
        injection h with h; subst h
        exact ⟨Nat.le_refl _, by omega, hpi, fun k hk1 hk2 => by omega⟩
      · rintro ⟨h1, h2, hpj, hmin⟩
        rcases Nat.eq_or_lt_of_le h1 with rfl | hlt
        · rfl
        · exact absurd hpi (by simp [hmin i (Nat.le_refl _) hlt])
    · rw [if_neg hpi, ih]
      constructor
      · rintro ⟨h1, h2, hpj, hmin⟩
        refine ⟨by omega, by omega, hpj, fun k hk1 hk2 => ?_⟩
        rcases Nat.eq_or_lt_of_le hk1 with rfl | hlt
        · exact Bool.eq_false_iff.mpr hpi
        · exact hmin k hlt hk2
      · rintro ⟨h1, h2, hpj, hmin⟩
        have hij : i ≠ j := by rintro rfl; exact hpi hpj
        exact ⟨by omega, by omega, hpj, fun k hk1 hk2 => hmin k (by omega) hk2⟩

theorem scanFirst_eq_none_iff {p : Nat → Bool} {n i : Nat} :
    scanFirst p n i = none ↔ ∀ k, i ≤ k → k < i + n → p k = false := by
  induction n generalizing i with
  | zero =>
    simp only [scanFirst]
    constructor
    · intro _ k hk1 hk2; omega
    · intro _; trivial
  | succ n ih =>
    simp only [scanFirst]
    by_cases hpi : p i
    · rw [if_pos hpi]
      constructor
      · intro h; cases h
      · intro h
        exact absurd hpi (by simp [h i (Nat.le_refl _) (by omega)])
    · rw [if_neg hpi, ih]
      constructor
      · intro h k hk1 hk2
        rcases Nat.eq_or_lt_of_le hk1 with rfl | hlt
        · exact Bool.eq_false_iff.mpr hpi
        · exact h k hlt (by omega)
      · intro h k hk1 hk2
        exact h k (by omega) (by omega)

theorem clampScan_eq_some_iff {q : Nat → Bool} {m N j : Nat} :
    scanFirst (fun i => decide (m ≤ i) && q i) (N + 1) 0 = some j ↔
      m ≤ j ∧ j ≤ N ∧ q j = true ∧ ∀ k, m ≤ k → k < j → q k = false := by
  rw [scanFirst_eq_some_iff]
  constructor
  · rintro ⟨-, h2, h3, h4⟩
    rw [Bool.and_eq_true, decide_eq_true_eq] at h3
    refine ⟨h3.1, by omega, h3.2, fun k hk1 hk2 => ?_⟩
    have h5 := h4 k (Nat.zero_le _) hk2
    simpa [hk1] using h5
  · rintro ⟨h1, h2, h3, h4⟩
    refine ⟨Nat.zero_le _, by omega, by simp [h1, h3], fun k hk1 hk2 => ?_⟩
    by_cases hmk : m ≤ k
    · simp [hmk, h4 k hmk hk2]
    · simp [hmk]

theorem clampScan_eq_none_iff {q : Nat → Bool} {m N : Nat} :
    scanFirst (fun i => decide (m ≤ i) && q i) (N + 1) 0 = none ↔
      ∀ k, m ≤ k → k ≤ N → q k = false := by
  rw [scanFirst_eq_none_iff]
  constructor
  · intro h k hk1 hk2
    have h5 := h k (Nat.zero_le _) (by omega)
    simpa [hk1] using h5
  · intro h k hk1 hk2
    by_cases hmk : m ≤ k
    · simp [hmk, h k hmk (by omega)]
    · simp [hmk]

theorem indexOfFrom_eq_some_iff {doc pat : Str} {start j : Nat} :
    indexOfFrom doc pat start = some j ↔
      min start doc.length ≤ j ∧ j ≤ doc.length ∧ matchAt doc pat j = true ∧
      ∀ k, min start doc.length ≤ k → k < j → matchAt doc pat k = false := by
  unfold indexOfFrom
  exact clampScan_eq_some_iff

theorem indexOfFrom_eq_none_iff {doc pat : Str} {start : Nat} :
    indexOfFrom doc pat start = none ↔
      ∀ k, min start doc.length ≤ k → k ≤ doc.length → matchAt doc pat k = false := by
  unfold indexOfFrom
  exact clampScan_eq_none_iff

theorem endSearchFrom_eq_some_iff {p : EndPat} {doc : Str} {start j : Nat} :
    endSearchFrom p doc start = some j ↔
      min start doc.length ≤ j ∧ j ≤ doc.length ∧ endMatchAt p doc j = true ∧
      ∀ k, min start doc.length ≤ k → k < j → endMatchAt p doc k = false := by
  unfold endSearchFrom
  exact clampScan_eq_some_iff

theorem endSearchFrom_eq_none_iff {p : EndPat} {doc : Str} {start : Nat} :
    endSearchFrom p doc start = none ↔
      ∀ k, min start doc.length ≤ k → k ≤ doc.length → endMatchAt p doc k = false := by
  unfold endSearchFrom
  exact clampScan_eq_none_iff

/-! ### Facts about literal and end-pattern matches -/

theorem matchAt_true_iff {doc pat : Str} {i : Nat} :
    matchAt doc pat i = true ↔ (doc.drop i).take pat.length = pat := by
  simp [matchAt]

theorem matchAt_append {A pat Y : Str} {n : Nat} (h : A.length = n) :
    matchAt (A ++ (pat ++ Y)) pat n = true := by
  rw [matchAt_true_iff, List.drop_left' h, List.take_left]

theorem matchAt_le {doc pat : Str} {i : Nat} (h : matchAt doc pat i = true)
    (hi : i ≤ doc.length) : i + pat.length ≤ doc.length := by
  rw [matchAt_true_iff] at h
  have hlen := congrArg List.length h
  rw [List.length_take, List.length_drop] at hlen
  omega

theorem matchAt_decomp {doc pat : Str} {i : Nat} (h : matchAt doc pat i = true) :
    doc = doc.take i ++ pat ++ doc.drop (i + pat.length) := by
  rw [matchAt_true_iff] at h
  rw [List.append_assoc]
  conv_lhs => rw [← List.take_append_drop i doc]
  congr 1
  conv_lhs => rw [← List.take_append_drop pat.length (doc.drop i)]
  rw [h, List.drop_drop]

theorem endMatchLen_fp (pre post : Str) :
    endMatchLen ⟨pre, post, true⟩ =
      pre.length + FINGERPRINT_VALUE_IN_HEX_LENGTH + post.length := rfl

theorem endMatchLen_nofp (pre post : Str) :
    endMatchLen ⟨pre, post, false⟩ = pre.length := rfl

theorem endMatchAt_fp (pre post doc : Str) (i : Nat) :
    endMatchAt ⟨pre, post, true⟩ doc i =
      (matchAt doc pre i &&
       decide (((doc.drop (i + pre.length)).take FINGERPRINT_VALUE_IN_HEX_LENGTH).length =
         FINGERPRINT_VALUE_IN_HEX_LENGTH) &&
       ((doc.drop (i + pre.length)).take FINGERPRINT_VALUE_IN_HEX_LENGTH).all isHexDigit &&
       matchAt doc post (i + pre.length + FINGERPRINT_VALUE_IN_HEX_LENGTH)) := rfl

theorem endMatchAt_nofp (pre post doc : Str) (i : Nat) :
    endMatchAt ⟨pre, post, false⟩ doc i = matchAt doc pre i := rfl

theorem endCapture_fp (pre post doc : Str) (i : Nat) :
    endCapture ⟨pre, post, true⟩ doc i =
      some ((doc.drop (i + pre.length)).take FINGERPRINT_VALUE_IN_HEX_LENGTH) := rfl

theorem endMatchAt_append {X pre g post Y : Str}
    (hg40 : g.length = FINGERPRINT_VALUE_IN_HEX_LENGTH) (hghex : g.all isHexDigit = true) :
    endMatchAt ⟨pre, post, true⟩ (X ++ (pre ++ (g ++ (post ++ Y)))) X.length = true ∧
    endCapture ⟨pre, post, true⟩ (X ++ (pre ++ (g ++ (post ++ Y)))) X.length = some g := by
  have hdrop : (X ++ (pre ++ (g ++ (post ++ Y)))).drop (X.length + pre.length) =
      g ++ (post ++ Y) := by
    rw [← List.append_assoc, List.drop_left' (by simp)]
  have htake : ((X ++ (pre ++ (g ++ (post ++ Y)))).drop
      (X.length + pre.length)).take FINGERPRINT_VALUE_IN_HEX_LENGTH = g := by
    rw [hdrop, List.take_left' hg40]
  have hpost : matchAt (X ++ (pre ++ (g ++ (post ++ Y)))) post
      (X.length + pre.length + FINGERPRINT_VALUE_IN_HEX_LENGTH) = true := by
    have hre : X ++ (pre ++ (g ++ (post ++ Y))) = (X ++ (pre ++ g)) ++ (post ++ Y) := by
      simp [List.append_assoc]
    rw [hre]
    refine matchAt_append ?_
    simp [hg40]
    omega
  refine ⟨?_, ?_⟩
  · rw [endMatchAt_fp, htake]
    simp [matchAt_append rfl, hg40, hghex, hpost]
  · rw [endCapture_fp, htake]

theorem endMatchAt_le {p : EndPat} {doc : Str} {i : Nat} (h : endMatchAt p doc i = true)
    (hi : i ≤ doc.length) : i + endMatchLen p ≤ doc.length := by
  obtain ⟨pre, post, hasFp⟩ := p
  cases hasFp
  · rw [endMatchAt_nofp] at h
    rw [endMatchLen_nofp]
    exact matchAt_le h hi
  · rw [endMatchAt_fp] at h
    simp only [Bool.and_eq_true, decide_eq_true_eq] at h
    obtain ⟨⟨⟨hpre, hlen⟩, -⟩, hpost⟩ := h
    rw [List.length_take, List.length_drop] at hlen
    have h40 : FINGERPRINT_VALUE_IN_HEX_LENGTH = 40 := rfl
    have h1 : i + pre.length + FINGERPRINT_VALUE_IN_HEX_LENGTH ≤ doc.length := by omega
    have h2 := matchAt_le hpost (by omega)
    rw [endMatchLen_fp]
    omega

/-- The materialised end marker `endTag.replace(placeholder, rep)` splits the
template exactly where the search pattern does. -/
theorem replaceFirst_of_mkEndPat {e pre post : Str} (h : mkEndPat e = ⟨pre, post, true⟩)
    (rep : Str) : replaceFirst e FINGERPRINT_PLACEHOLDER rep = pre ++ (rep ++ post) := by
  cases hidx : indexOfFrom e FINGERPRINT_PLACEHOLDER 0 with
  | none => simp only [mkEndPat, hidx] at h; cases h
  | some j =>
    simp only [mkEndPat, hidx] at h
    injection h with h1 h2 h3
    subst h1; subst h2
    simp only [replaceFirst, hidx]
    rw [List.append_assoc]

/-- SHA-1 digest of the empty string, as the hex characters the library
would embed. -/
def sha1OfEmpty : Str := "da39a3ee5e6b4b0d3255bfef95601890afd80709".toList

/-- SHA-1 digest of `"a"`. -/
def sha1OfA : Str := "86f7e437faa5a7fce15d1ddcb9eaeaea377667b8".toList

/-- SHA-1 digest of `"b"`. -/
def sha1OfB : Str := "e9d71f5ee7c92d6dc9e92ffdad17b8bd49418f98".toList

/-- Concrete stand-in for the external SHA-1 collaborator, used to evaluate
the development on concrete inputs.  It agrees with SHA-1 on the inputs the
concrete examples use and always produces 40 lowercase hex characters. -/
def fpTest (s : Str) : Str :=
  if s = [] then sha1OfEmpty
  else if s = ['a'] then sha1OfA
  else if s = ['b'] then sha1OfB
  else "0123456789abcdef0123456789abcdef01234567".toList

/-- The end-marker template used by the concrete examples. -/
def eTag : Str := "<%fingerprint%>".toList

/-- Uppercase rendering of a hex digest (JavaScript `toUpperCase` on hex). -/
def upHex (s : Str) : Str := s.map Char.toUpper

/-! ### Termination of the scanning loops for nonempty tags -/

theorem innerF_isSome {doc : Str} {p : EndPat} {expected : Option Str} {fp : Str → Str}
    {bo : Occ} (hL : 1 ≤ endMatchLen p) :
    ∀ fuel start st, doc.length + 1 ≤ fuel + start →
      (innerF doc p expected fp bo fuel start st).isSome = true := by
  intro fuel
  induction fuel with
  | zero =>
    intro start st hstart
    cases hs : endSearchFrom p doc start with
    | none => simp [innerF, hs]
    | some i =>
      exfalso
      rw [endSearchFrom_eq_some_iff] at hs
      obtain ⟨h1, h2, h3, -⟩ := hs
      have h4 := endMatchAt_le h3 h2
      omega
  | succ fuel ih =>
    intro start st hstart
    cases hs : endSearchFrom p doc start with
    | none => simp [innerF, hs]
    | some i =>
      have hs2 := hs
      rw [endSearchFrom_eq_some_iff] at hs2
      obtain ⟨h1, h2, h3, -⟩ := hs2
      have h4 := endMatchAt_le h3 h2
      simp only [innerF, hs]
      by_cases hv : validB doc expected fp bo ⟨i, i + endMatchLen p, endCapture p doc i⟩ = true
      · simp [hv]
      · simp only [hv, if_false, Bool.false_eq_true, if_neg]
        exact ih (i + endMatchLen p) _ (by omega)

theorem outerF_isSome {doc b : Str} {p : EndPat} {expected : Option Str} {fp : Str → Str}
    (hb : b ≠ []) (hL : 1 ≤ endMatchLen p) {ifuel : Nat} (hif : doc.length + 1 ≤ ifuel) :
    ∀ ofuel start st, doc.length + 1 ≤ ofuel + start →
      (outerF doc b p expected fp ofuel ifuel start st).isSome = true := by
  have hb1 : 1 ≤ b.length := List.length_pos.mpr hb
  intro ofuel
  induction ofuel with
  | zero =>
    intro start st hstart
    cases hs : indexOfFrom doc b start with
    | none => simp [outerF, hs]
    | some i =>
      exfalso
      rw [indexOfFrom_eq_some_iff] at hs
      obtain ⟨h1, h2, h3, -⟩ := hs
      have h4 := matchAt_le h3 h2
      omega
  | succ ofuel ih =>
    intro start st hstart
    cases hs : indexOfFrom doc b start with
    | none => simp [outerF, hs]
    | some i =>
      have hs2 := hs
      rw [indexOfFrom_eq_some_iff] at hs2
      obtain ⟨h1, h2, h3, -⟩ := hs2
      have h4 := matchAt_le h3 h2
      simp only [outerF, hs]
      have hinner : (innerF doc p expected fp ⟨i, i + b.length⟩ ifuel (i + b.length)
          (recordBegin st ⟨i, i + b.length⟩)).isSome = true :=
        innerF_isSome hL ifuel (i + b.length) (recordBegin st ⟨i, i + b.length⟩) (by omega)
      cases hres : innerF doc p expected fp ⟨i, i + b.length⟩ ifuel (i + b.length)
          (recordBegin st ⟨i, i + b.length⟩) with
      | none => rw [hres] at hinner; simp at hinner
      | some r =>
        cases r with
        | inl eo => simp [hres]
        | inr st2 =>
          simp only [hres]
          exact ih (i + b.length) st2 (by omega)

theorem endMatchLen_mkEndPat_pos {e : Str} (he : e ≠ []) : 1 ≤ endMatchLen (mkEndPat e) := by
  have h40 : FINGERPRINT_VALUE_IN_HEX_LENGTH = 40 := rfl
  cases hidx : indexOfFrom e FINGERPRINT_PLACEHOLDER 0 with
  | some j =>
    simp only [mkEndPat, hidx, endMatchLen_fp]
    omega
  | none =>
    simp only [mkEndPat, hidx, endMatchLen_nofp]
    exact List.length_pos.mpr he

theorem getMashInfoF_isSome {doc b e : Str} {expected : Option Str} {fp : Str → Str}
    (hb : b ≠ []) (he : e ≠ []) {ofuel ifuel : Nat}
    (ho : doc.length + 1 ≤ ofuel) (hi : doc.length + 1 ≤ ifuel) :
    (getMashInfoF ofuel ifuel doc b expected e fp).isSome = true := by
  unfold getMashInfoF
  exact outerF_isSome hb (endMatchLen_mkEndPat_pos he) hi ofuel 0 initSt (by omega)

theorem endOccsF_isSome {doc : Str} {p : EndPat} (hL : 1 ≤ endMatchLen p) :
    ∀ fuel start, doc.length + 1 ≤ fuel + start → (endOccsF p doc fuel start).isSome = true := by
  intro fuel
  induction fuel with
  | zero =>
    intro start hstart
    cases hs : endSearchFrom p doc start with
    | none => simp [endOccsF, hs]
    | some i =>
      exfalso
      rw [endSearchFrom_eq_some_iff] at hs
      obtain ⟨h1, h2, h3, -⟩ := hs
      have h4 := endMatchAt_le h3 h2
      omega
  | succ fuel ih =>
    intro start hstart
    cases hs : endSearchFrom p doc start with
    | none => simp [endOccsF, hs]
    | some i =>
      have hs2 := hs
      rw [endSearchFrom_eq_some_iff] at hs2
      obtain ⟨h1, h2, h3, -⟩ := hs2
      have h4 := endMatchAt_le h3 h2
      simp only [endOccsF, hs]
      have hrec := ih (i + endMatchLen p) (by omega)
      cases hr : endOccsF p doc fuel (i + endMatchLen p) with
      | none => rw [hr] at hrec; simp at hrec
      | some el => simp [hr]

theorem beginOccsF_isSome {doc b : Str} (hb : b ≠ []) :
    ∀ fuel start, doc.length + 1 ≤ fuel + start → (beginOccsF doc b fuel start).isSome = true := by
  have hb1 : 1 ≤ b.length := List.length_pos.mpr hb
  intro fuel
  induction fuel with
  | zero =>
    intro start hstart
    cases hs : indexOfFrom doc b start with
    | none => simp [beginOccsF, hs]
    | some i =>
      exfalso
      rw [indexOfFrom_eq_some_iff] at hs
      obtain ⟨h1, h2, h3, -⟩ := hs
      have h4 := matchAt_le h3 h2
      omega
  | succ fuel ih =>
    intro start hstart
    cases hs : indexOfFrom doc b start with
    | none => simp [beginOccsF, hs]
    | some i =>
      have hs2 := hs
      rw [indexOfFrom_eq_some_iff] at hs2
      obtain ⟨h1, h2, h3, -⟩ := hs2
      have h4 := matchAt_le h3 h2
      simp only [beginOccsF, hs]
      have hrec := ih (i + b.length) (by omega)
      cases hr : beginOccsF doc b fuel (i + b.length) with
      | none => rw [hr] at hrec; simp at hrec
      | some bl => simp [hr]

theorem zipEnds_isSome {doc : Str} {p : EndPat} (hL : 1 ≤ endMatchLen p) {ifuel : Nat}
    (hif : doc.length + 1 ≤ ifuel) :
    ∀ bl, (zipEnds p doc ifuel bl).isSome = true := by
  intro bl
  induction bl with
  | nil => simp [zipEnds]
  | cons bo rest ih =>
    simp only [zipEnds]
    have h1 : (endOccsF p doc ifuel bo.endIndex).isSome = true :=
      endOccsF_isSome hL ifuel bo.endIndex (by omega)
    cases he : endOccsF p doc ifuel bo.endIndex with
    | none => rw [he] at h1; simp at h1
    | some el =>
      cases hz : zipEnds p doc ifuel rest with
      | none => rw [hz] at ih; simp at ih
      | some tl => simp [he, hz]

theorem pairsEnum_isSome {doc b e : Str} (hb : b ≠ []) (he : e ≠ []) {ofuel ifuel : Nat}
    (ho : doc.length + 1 ≤ ofuel) (hi : doc.length + 1 ≤ ifuel) :
    (pairsEnum doc b e ofuel ifuel).isSome = true := by
  unfold pairsEnum
  have h1 : (beginOccsF doc b ofuel 0).isSome = true := beginOccsF_isSome hb ofuel 0 (by omega)
  cases hbl : beginOccsF doc b ofuel 0 with
  | none => rw [hbl] at h1; simp at h1
  | some bl =>
    have h2 : (zipEnds (mkEndPat e) doc ifuel bl).isSome = true :=
      zipEnds_isSome (endMatchLen_mkEndPat_pos he) hi bl
    cases hz : zipEnds (mkEndPat e) doc ifuel bl with
    | none => rw [hz] at h2; simp at h2
    | some prs => simp [hz]

/-! ### Soundness of the occurrence enumerations -/

theorem beginOccsF_mem {doc b : Str} :
    ∀ fuel start bl, beginOccsF doc b fuel start = some bl →
      ∀ bo ∈ bl, bo.endIndex = bo.index + b.length ∧ matchAt doc b bo.index = true ∧
        min start doc.length ≤ bo.index ∧ bo.index ≤ doc.length := by
  intro fuel
  induction fuel with
  | zero =>
    intro start bl h bo hbo
    cases hs : indexOfFrom doc b start with
    | none =>
      simp only [beginOccsF, hs, Option.some.injEq] at h
      subst h
      cases hbo
    | some i => simp [beginOccsF, hs] at h
  | succ fuel ih =>
    intro start bl h bo hbo
    cases hs : indexOfFrom doc b start with
    | none =>
      simp only [beginOccsF, hs, Option.some.injEq] at h
      subst h
      cases hbo
    | some i =>
      simp only [beginOccsF, hs, Option.map_eq_some'] at h
      obtain ⟨tl, htl, rfl⟩ := h
      rw [indexOfFrom_eq_some_iff] at hs
      obtain ⟨h1, h2, h3, -⟩ := hs
      rcases List.mem_cons.mp hbo with rfl | hmem
      · exact ⟨rfl, h3, h1, h2⟩
      · have := ih (i + b.length) tl htl bo hmem
        refine ⟨this.1, this.2.1, ?_, this.2.2.2⟩
        omega

theorem endOccsF_mem {doc : Str} {p : EndPat} :
    ∀ fuel start el, endOccsF p doc fuel start = some el →
      ∀ eo ∈ el, eo.endIndex = eo.index + endMatchLen p ∧
        eo.fingerprint = endCapture p doc eo.index ∧ endMatchAt p doc eo.index = true ∧
        min start doc.length ≤ eo.index ∧ eo.index ≤ doc.length := by
  intro fuel
  induction fuel with
  | zero =>
    intro start el h eo heo
    cases hs : endSearchFrom p doc start with
    | none =>
      simp only [endOccsF, hs, Option.some.injEq] at h
      subst h
      cases heo
    | some i => simp [endOccsF, hs] at h
  | succ fuel ih =>
    intro start el h eo heo
    cases hs : endSearchFrom p doc start with
    | none =>
      simp only [endOccsF, hs, Option.some.injEq] at h
      subst h
      cases heo
    | some i =>
      simp only [endOccsF, hs, Option.map_eq_some'] at h
      obtain ⟨tl, htl, rfl⟩ := h
      rw [endSearchFrom_eq_some_iff] at hs
      obtain ⟨h1, h2, h3, -⟩ := hs
      rcases List.mem_cons.mp heo with rfl | hmem
      · exact ⟨rfl, rfl, h3, h1, h2⟩
      · have := ih (i + endMatchLen p) tl htl eo hmem
        refine ⟨this.1, this.2.1, this.2.2.1, ?_, this.2.2.2.2⟩
        omega

/-! ### The fuel-indexed loops replay the pure list scan -/

theorem innerF_of_endOccsF {doc : Str} {p : EndPat} {expected : Option Str} {fp : Str → Str}
    {bo : Occ} :
    ∀ fuel start st el, endOccsF p doc fuel start = some el →
      innerF doc p expected fp bo fuel start st =
        some (innerList doc expected fp bo el st) := by
  intro fuel
  induction fuel with
  | zero =>
    intro start st el h
    cases hs : endSearchFrom p doc start with
    | none =>
      simp only [endOccsF, hs, Option.some.injEq] at h
      subst h
      simp [innerF, hs, innerList]
    | some i => simp [endOccsF, hs] at h
  | succ fuel ih =>
    intro start st el h
    cases hs : endSearchFrom p doc start with
    | none =>
      simp only [endOccsF, hs, Option.some.injEq] at h
      subst h
      simp [innerF, hs, innerList]
    | some i =>
      simp only [endOccsF, hs, Option.map_eq_some'] at h
      obtain ⟨tl, htl, rfl⟩ := h
      simp only [innerF, hs, innerList]
      by_cases hv : validB doc expected fp bo ⟨i, i + endMatchLen p, endCapture p doc i⟩ = true
      · simp [hv]
      · simp only [hv, if_false, Bool.false_eq_true, if_neg]
        exact ih _ _ _ htl

theorem outerF_of_pairs {doc b : Str} {p : EndPat} {expected : Option Str} {fp : Str → Str}
    {ifuel : Nat} :
    ∀ ofuel start st bl prs, beginOccsF doc b ofuel start = some bl →
      zipEnds p doc ifuel bl = some prs →
      outerF doc b p expected fp ofuel ifuel start st =
        some (outerList doc p expected fp prs st) := by
  intro ofuel
  induction ofuel with
  | zero =>
    intro start st bl prs h1 h2
    cases hs : indexOfFrom doc b start with
    | none =>
      simp only [beginOccsF, hs, Option.some.injEq] at h1
      subst h1
      simp only [zipEnds, Option.some.injEq] at h2
      subst h2
      simp [outerF, hs, outerList]
    | some i => simp [beginOccsF, hs] at h1
  | succ ofuel ih =>
    intro start st bl prs h1 h2
    cases hs : indexOfFrom doc b start with
    | none =>
      simp only [beginOccsF, hs, Option.some.injEq] at h1
      subst h1
      simp only [zipEnds, Option.some.injEq] at h2
      subst h2
      simp [outerF, hs, outerList]
    | some i =>
      simp only [beginOccsF, hs, Option.map_eq_some'] at h1
      obtain ⟨tlb, htlb, rfl⟩ := h1
      simp only [zipEnds, Option.bind_eq_some, Option.map_eq_some'] at h2
      obtain ⟨el, hel, tlp, htlp, rfl⟩ := h2
      simp only [outerF, hs]
      rw [innerF_of_endOccsF ifuel _ _ _ hel]
      simp only [outerList]
      cases hil : innerList doc expected fp ⟨i, i + b.length⟩ el
          (recordBegin st ⟨i, i + b.length⟩) with
      | inl eo => rfl
      | inr st2 => exact ih _ _ _ _ htlb htlp

theorem getMashInfoF_of_pairsEnum {doc b e : Str} {expected : Option Str} {fp : Str → Str}
    {ofuel ifuel : Nat} {prs : List (Occ × List EndOcc)}
    (h : pairsEnum doc b e ofuel ifuel = some prs) :
    getMashInfoF ofuel ifuel doc b expected e fp =
      some (outerList doc (mkEndPat e) expected fp prs initSt) := by
  unfold pairsEnum at h
  rw [Option.bind_eq_some] at h
  obtain ⟨bl, hbl, hz⟩ := h
  exact outerF_of_pairs ofuel 0 initSt bl prs hbl hz

/-! ### Invariants of the scan state -/

theorem recordBegin_firstBegin_of_none {st : ScanSt} (h : st.firstBegin = none) (bo : Occ) :
    (recordBegin st bo).firstBegin = some bo := by
  simp [recordBegin, h]

theorem recordBegin_firstBegin_of_some {st : ScanSt} {x : Occ} (h : st.firstBegin = some x)
    (bo : Occ) : (recordBegin st bo).firstBegin = some x := by
  simp [recordBegin, h]

theorem recordBegin_firstEnd (st : ScanSt) (bo : Occ) :
    (recordBegin st bo).firstEnd = st.firstEnd := rfl

theorem recordBegin_firstInvalid (st : ScanSt) (bo : Occ) :
    (recordBegin st bo).firstInvalid = st.firstInvalid := rfl

theorem recordEnd_firstBegin (st : ScanSt) (eo : EndOcc) :
    (recordEnd st eo).firstBegin = st.firstBegin := rfl

theorem recordInvalid_firstBegin (st : ScanSt) (t f : Bool) :
    (recordInvalid st t f).firstBegin = st.firstBegin := by
  unfold recordInvalid
  split <;> rfl

theorem recordInvalid_firstEnd (st : ScanSt) (t f : Bool) :
    (recordInvalid st t f).firstEnd = st.firstEnd := by
  unfold recordInvalid
  split <;> rfl

/-- Properties of the scan locals that every loop step preserves. -/
def StOk (expected : Option Str) (st : ScanSt) : Prop :=
  (st.firstEnd.isSome = true → st.firstInvalid ≠ .Unmashed) ∧
  st.firstInvalid ≠ .Mashed ∧ st.firstInvalid ≠ .BeginTagMissing ∧
  st.firstInvalid ≠ .EndTagMissing ∧
  (expected = none → st.firstInvalid ≠ .SourceTextTampered)

theorem initSt_stOk (expected : Option Str) : StOk expected initSt :=
  ⟨by simp [initSt], by simp [initSt], by simp [initSt], by simp [initSt], by simp [initSt]⟩

theorem recordBegin_stOk {expected : Option Str} {st : ScanSt} (h : StOk expected st)
    (bo : Occ) : StOk expected (recordBegin st bo) := by
  obtain ⟨h1, h2, h3, h4, h5⟩ := h
  exact ⟨by rw [recordBegin_firstEnd, recordBegin_firstInvalid]; exact h1,
    by rw [recordBegin_firstInvalid]; exact h2,
    by rw [recordBegin_firstInvalid]; exact h3,
    by rw [recordBegin_firstInvalid]; exact h4,
    by rw [recordBegin_firstInvalid]; exact fun he => h5 he⟩

theorem step_stOk {doc : Str} {expected : Option Str} {fp : Str → Str} {st : ScanSt}
    {bo : Occ} {eo : EndOcc} (hok : StOk expected st)
    (hinvalid : validB doc expected fp bo eo = false) :
    StOk expected (recordInvalid (recordEnd st eo) (tamperedB doc expected bo eo)
      (fpInvalidB doc fp bo eo)) := by
  obtain ⟨h1, h2, h3, h4, h5⟩ := hok
  by_cases hfi : st.firstInvalid = .Unmashed
  · have hfi2 : (recordEnd st eo).firstInvalid = MashState.Unmashed := hfi
    unfold recordInvalid
    rw [if_pos hfi2]
    have hor : tamperedB doc expected bo eo = true ∨ fpInvalidB doc fp bo eo = true := by
      by_contra hcon
      push_neg at hcon
      obtain ⟨ht, hf⟩ := hcon
      rw [← Bool.eq_false_iff] at ht hf
      unfold validB at hinvalid
      rw [ht, hf] at hinvalid
      simp at hinvalid
    rcases hor with ht | hf
    · rw [ht]
      refine ⟨fun _ => by simp, by simp, by simp, by simp, fun he => ?_⟩
      exfalso
      rw [he] at ht
      simp [tamperedB] at ht
    · by_cases ht : tamperedB doc expected bo eo = true
      · rw [ht]
        refine ⟨fun _ => by simp, by simp, by simp, by simp, fun he => ?_⟩
        exfalso
        rw [he] at ht
        simp [tamperedB] at ht
      · rw [Bool.not_eq_true] at ht
        rw [ht, hf]
        exact ⟨fun _ => by simp, by simp, by simp, by simp, fun _ => by simp⟩
  · have hfi2 : (recordEnd st eo).firstInvalid ≠ MashState.Unmashed := hfi
    unfold recordInvalid
    rw [if_neg hfi2]
    exact ⟨fun _ => hfi2, h2, h3, h4, fun he => h5 he⟩

/-! ### Soundness of the inner loop -/

theorem innerF_inl_sound {doc : Str} {p : EndPat} {expected : Option Str} {fp : Str → Str}
    {bo : Occ} :
    ∀ fuel start st eo, innerF doc p expected fp bo fuel start st = some (Sum.inl eo) →
      eo.endIndex = eo.index + endMatchLen p ∧ eo.fingerprint = endCapture p doc eo.index ∧
      endMatchAt p doc eo.index = true ∧ min start doc.length ≤ eo.index ∧
      eo.index ≤ doc.length ∧ validB doc expected fp bo eo = true := by
  intro fuel
  induction fuel with
  | zero =>
    intro start st eo h
    cases hs : endSearchFrom p doc start <;> simp [innerF, hs] at h
  | succ fuel ih =>
    intro start st eo h
    cases hs : endSearchFrom p doc start with
    | none => simp [innerF, hs] at h
    | some i =>
      have hs2 := hs
      rw [endSearchFrom_eq_some_iff] at hs2
      obtain ⟨h1, h2, h3, -⟩ := hs2
      simp only [innerF, hs] at h
      by_cases hv : validB doc expected fp bo ⟨i, i + endMatchLen p, endCapture p doc i⟩ = true
      · rw [if_pos hv] at h
        simp only [Option.some.injEq, Sum.inl.injEq] at h
        subst h
        exact ⟨rfl, rfl, h3, h1, h2, hv⟩
      · rw [if_neg hv] at h
        have hrec := ih _ _ _ h
        refine ⟨hrec.1, hrec.2.1, hrec.2.2.1, ?_, hrec.2.2.2.2.1, hrec.2.2.2.2.2⟩
        have := hrec.2.2.2.1
        omega

theorem innerF_inr_sound {doc : Str} {p : EndPat} {expected : Option Str} {fp : Str → Str}
    {bo : Occ} :
    ∀ fuel start st st2, innerF doc p expected fp bo fuel start st = some (Sum.inr st2) →
      StOk expected st → StOk expected st2 ∧ st2.firstBegin = st.firstBegin := by
  intro fuel
  induction fuel with
  | zero =>
    intro start st st2 h hok
    cases hs : endSearchFrom p doc start with
    | none =>
      simp only [innerF, hs, Option.some.injEq, Sum.inr.injEq] at h
      subst h
      exact ⟨hok, rfl⟩
    | some i => simp [innerF, hs] at h
  | succ fuel ih =>
    intro start st st2 h hok
    cases hs : endSearchFrom p doc start with
    | none =>
      simp only [innerF, hs, Option.some.injEq, Sum.inr.injEq] at h
      subst h
      exact ⟨hok, rfl⟩
    | some i =>
      simp only [innerF, hs] at h
      by_cases hv : validB doc expected fp bo ⟨i, i + endMatchLen p, endCapture p doc i⟩ = true
      · rw [if_pos hv] at h
        cases h
      · rw [if_neg hv] at h
        have hstep := @step_stOk doc expected fp st bo
          ⟨i, i + endMatchLen p, endCapture p doc i⟩ hok (Bool.not_eq_true _ ▸ hv)
        have hrec := ih _ _ _ h hstep
        refine ⟨hrec.1, ?_⟩
        rw [hrec.2, recordInvalid_firstBegin, recordEnd_firstBegin]

/-! ### Classification soundness of `_getMashInfo` -/

/-- What each returned `MashInfo` guarantees about the document, by state. -/
def InfoWF (doc b : Str) (p : EndPat) (expected : Option Str) (fp : Str → Str)
    (info : MashInfo) : Prop :=
  match info.state with
  | .SourceTextTampered => expected.isSome = true
  | .Mashed =>
    ∃ bo eo, info = mkInfo .Mashed (some bo) (some eo) ∧
      bo.endIndex = bo.index + b.length ∧ matchAt doc b bo.index = true ∧
      bo.index + b.length ≤ doc.length ∧
      eo.endIndex = eo.index + endMatchLen p ∧ eo.fingerprint = endCapture p doc eo.index ∧
      endMatchAt p doc eo.index = true ∧ eo.index + endMatchLen p ≤ doc.length ∧
      bo.endIndex ≤ eo.index ∧ validB doc expected fp bo eo = true
  | .Unmashed =>
    info = mkInfo .Unmashed none none ∧ indexOfFrom doc b 0 = none ∧
      endSearchFrom p doc 0 = none
  | .BeginTagMissing =>
    ∃ i, indexOfFrom doc b 0 = none ∧ endSearchFrom p doc 0 = some i ∧
      i + endMatchLen p ≤ doc.length ∧
      info = mkInfo .BeginTagMissing none (some ⟨i, i + endMatchLen p, endCapture p doc i⟩)
  | .EndTagMissing =>
    ∃ bo, indexOfFrom doc b 0 = some bo.index ∧ bo.endIndex = bo.index + b.length ∧
      bo.index + b.length ≤ doc.length ∧ info = mkInfo .EndTagMissing (some bo) none
  | .FingerprintInvalid =>
    ∃ bo eo, indexOfFrom doc b 0 = some bo.index ∧ bo.endIndex = bo.index + b.length ∧
      bo.index + b.length ≤ doc.length ∧
      info = mkInfo .FingerprintInvalid (some bo) (some eo)

/-- The invariant carried by the outer loop. -/
def StInv (doc b : Str) (expected : Option Str) (start : Nat) (st : ScanSt) : Prop :=
  StOk expected st ∧
  (st.firstBegin = none → start = 0) ∧
  (∀ bo, st.firstBegin = some bo → indexOfFrom doc b 0 = some bo.index ∧
    bo.endIndex = bo.index + b.length ∧ bo.index + b.length ≤ doc.length)

theorem initSt_stInv (doc b : Str) (expected : Option Str) : StInv doc b expected 0 initSt :=
  ⟨initSt_stOk expected, fun _ => rfl, fun bo h => by simp [initSt] at h⟩

theorem finishScan_wf {doc b : Str} {p : EndPat} {expected : Option Str} {fp : Str → Str}
    {start : Nat} {st : ScanSt} (hinv : StInv doc b expected start st)
    (hidx : indexOfFrom doc b start = none) :
    InfoWF doc b p expected fp (finishScan doc p st) := by
  obtain ⟨⟨hok1, hok2, hok3, hok4, hok5⟩, hnone, hsome⟩ := hinv
  cases hfb : st.firstBegin with
  | none =>
    have hstart := hnone hfb
    subst hstart
    cases hes : endSearchFrom p doc 0 with
    | none =>
      simp only [finishScan, hfb, hes]
      exact ⟨rfl, hidx, hes⟩
    | some i =>
      simp only [finishScan, hfb, hes]
      have hes2 := hes
      rw [endSearchFrom_eq_some_iff] at hes2
      obtain ⟨-, he2, he3, -⟩ := hes2
      exact ⟨i, hidx, hes, endMatchAt_le he3 he2, rfl⟩
  | some fb =>
    obtain ⟨hf1, hf2, hf3⟩ := hsome fb hfb
    cases hfe : st.firstEnd with
    | none =>
      simp only [finishScan, hfb, hfe]
      exact ⟨fb, hf1, hf2, hf3, rfl⟩
    | some fe =>
      simp only [finishScan, hfb, hfe]
      have hne : st.firstInvalid ≠ .Unmashed := hok1 (by rw [hfe]; rfl)
      cases hval : st.firstInvalid with
      | Unmashed => exact absurd hval hne
      | Mashed => exact absurd hval hok2
      | BeginTagMissing => exact absurd hval hok3
      | EndTagMissing => exact absurd hval hok4
      | SourceTextTampered =>
        cases hexp : expected with
        | none => exact absurd hval (hok5 hexp)
        | some s => exact rfl
      | FingerprintInvalid =>
        exact ⟨fb, fe, hf1, hf2, hf3, rfl⟩

theorem outerF_wf {doc b : Str} {p : EndPat} {expected : Option Str} {fp : Str → Str}
    {ifuel : Nat} :
    ∀ ofuel start st info, StInv doc b expected start st →
      outerF doc b p expected fp ofuel ifuel start st = some info →
      InfoWF doc b p expected fp info := by
  intro ofuel
  induction ofuel with
  | zero =>
    intro start st info hinv h
    cases hs : indexOfFrom doc b start with
    | none =>
      simp only [outerF, hs, Option.some.injEq] at h
      subst h
      exact finishScan_wf hinv hs
    | some i => simp [outerF, hs] at h
  | succ ofuel ih =>
    intro start st info hinv h
    cases hs : indexOfFrom doc b start with
    | none =>
      simp only [outerF, hs, Option.some.injEq] at h
      subst h
      exact finishScan_wf hinv hs
    | some i =>
      have hs2 := hs
      rw [indexOfFrom_eq_some_iff] at hs2
      obtain ⟨h1, h2, h3, -⟩ := hs2
      have h4 := matchAt_le h3 h2
      obtain ⟨hok, hnone, hsome⟩ := hinv
      have hok1 : StOk expected (recordBegin st ⟨i, i + b.length⟩) :=
        recordBegin_stOk hok ⟨i, i + b.length⟩
      simp only [outerF, hs] at h
      cases hres : innerF doc p expected fp ⟨i, i + b.length⟩ ifuel (i + b.length)
          (recordBegin st ⟨i, i + b.length⟩) with
      | none => rw [hres] at h; cases h
      | some r =>
        rw [hres] at h
        cases r with
        | inl eo =>
          simp only [Option.some.injEq] at h
          subst h
          obtain ⟨he1, he2, he3, he4, he5, he6⟩ := innerF_inl_sound ifuel _ _ _ hres
          exact ⟨⟨i, i + b.length⟩, eo, rfl, rfl, h3, h4, he1, he2, he3,
            endMatchAt_le he3 he5, by show i + b.length ≤ eo.index; omega, he6⟩
        | inr st2 =>
          obtain ⟨hok2, hfb2⟩ := innerF_inr_sound ifuel _ _ _ hres hok1
          refine ih (i + b.length) st2 info ⟨hok2, ?_, ?_⟩ h
          · intro hn
            rw [hfb2] at hn
            exfalso
            cases hfb : st.firstBegin with
            | none => rw [recordBegin_firstBegin_of_none hfb] at hn; cases hn
            | some fb => rw [recordBegin_firstBegin_of_some hfb] at hn; cases hn
          · intro bo hbo
            rw [hfb2] at hbo
            cases hfb : st.firstBegin with
            | none =>
              rw [recordBegin_firstBegin_of_none hfb] at hbo
              have hstart := hnone hfb
              subst hstart
              injection hbo with hbo
              subst hbo
              exact ⟨by simpa using hs, rfl, h4⟩
            | some fb =>
              rw [recordBegin_firstBegin_of_some hfb] at hbo
              injection hbo with hbo
              subst hbo
              exact hsome fb hfb

theorem getMashInfoF_wf {doc b e : Str} {expected : Option Str} {fp : Str → Str}
    {ofuel ifuel : Nat} {info : MashInfo}
    (h : getMashInfoF ofuel ifuel doc b expected e fp = some info) :
    InfoWF doc b (mkEndPat e) expected fp info :=
  outerF_wf ofuel 0 initSt info (initSt_stInv doc b expected) h

/-! ### The pure list scan versus first-valid-pair search -/

theorem recordEnd_of_some {st : ScanSt} {x : EndOcc} (h : st.firstEnd = some x) (eo : EndOcc) :
    recordEnd st eo = st := by
  cases st
  simp only [recordEnd] at h ⊢
  simp_all

theorem recordBegin_of_some {st : ScanSt} {x : Occ} (h : st.firstBegin = some x) (bo : Occ) :
    recordBegin st bo = st := by
  cases st
  simp only [recordBegin] at h ⊢
  simp_all

theorem recordInvalid_of_ne {st : ScanSt} (h : st.firstInvalid ≠ .Unmashed) (t f : Bool) :
    recordInvalid st t f = st := by
  unfold recordInvalid
  rw [if_neg h]

theorem innerList_inl_iff {doc : Str} {expected : Option Str} {fp : Str → Str} {bo : Occ} :
    ∀ el (st : ScanSt) (eo : EndOcc),
      innerList doc expected fp bo el st = Sum.inl eo ↔
        el.find? (fun x => validB doc expected fp bo x) = some eo := by
  intro el
  induction el with
  | nil => intro st eo; simp [innerList]
  | cons eo2 rest ih =>
    intro st eo
    simp only [innerList]
    by_cases hv : validB doc expected fp bo eo2 = true
    · rw [if_pos hv, List.find?_cons_of_pos _ hv]
      simp
    · rw [if_neg hv, List.find?_cons_of_neg _ hv]
      exact ih _ eo

theorem innerList_inr_stOk {doc : Str} {expected : Option Str} {fp : Str → Str} {bo : Occ} :
    ∀ el (st st2 : ScanSt), innerList doc expected fp bo el st = Sum.inr st2 →
      StOk expected st → StOk expected st2 ∧ st2.firstBegin = st.firstBegin := by
  intro el
  induction el with
  | nil =>
    intro st st2 h hok
    simp only [innerList, Sum.inr.injEq] at h
    subst h
    exact ⟨hok, rfl⟩
  | cons eo2 rest ih =>
    intro st st2 h hok
    simp only [innerList] at h
    by_cases hv : validB doc expected fp bo eo2 = true
    · rw [if_pos hv] at h; cases h
    · rw [if_neg hv] at h
      have hstep := @step_stOk doc expected fp st bo eo2 hok (Bool.eq_false_iff.mpr hv)
      have hrec := ih _ _ h hstep
      refine ⟨hrec.1, ?_⟩
      rw [hrec.2, recordInvalid_firstBegin, recordEnd_firstBegin]

theorem innerList_frozen {doc : Str} {expected : Option Str} {fp : Str → Str} {bo : Occ} :
    ∀ el (st : ScanSt) (x : EndOcc), st.firstEnd = some x → st.firstInvalid ≠ .Unmashed →
      (∀ eo ∈ el, validB doc expected fp bo eo = false) →
      innerList doc expected fp bo el st = Sum.inr st := by
  intro el
  induction el with
  | nil => intro st x hfe hfi hall; rfl
  | cons eo2 rest ih =>
    intro st x hfe hfi hall
    have hv : validB doc expected fp bo eo2 = false := hall eo2 (List.mem_cons_self _ _)
    simp only [innerList]
    rw [if_neg (by simp [hv])]
    rw [recordEnd_of_some hfe, recordInvalid_of_ne hfi]
    exact ih st x hfe hfi fun eo heo => hall eo (List.mem_cons_of_mem _ heo)

theorem flattenPairs_cons (bo : Occ) (el : List EndOcc) (rest : List (Occ × List EndOcc)) :
    flattenPairs ((bo, el) :: rest) =
      el.map (fun eo => (bo, eo)) ++ flattenPairs rest := by
  simp [flattenPairs]

theorem outerList_frozen {doc : Str} {p : EndPat} {expected : Option Str} {fp : Str → Str} :
    ∀ prs (st : ScanSt) (x : Occ) (y : EndOcc), st.firstBegin = some x →
      st.firstEnd = some y → st.firstInvalid ≠ .Unmashed →
      (∀ q ∈ flattenPairs prs, validB doc expected fp q.1 q.2 = false) →
      outerList doc p expected fp prs st = finishScan doc p st := by
  intro prs
  induction prs with
  | nil => intro st x y hfb hfe hfi hall; rfl
  | cons q rest ih =>
    obtain ⟨bo, el⟩ := q
    intro st x y hfb hfe hfi hall
    rw [flattenPairs_cons] at hall
    simp only [outerList]
    rw [recordBegin_of_some hfb]
    rw [innerList_frozen el st y hfe hfi ?hel]
    case hel =>
      intro eo heo
      exact hall (bo, eo) (List.mem_append_left _ (List.mem_map_of_mem _ heo))
    exact ih st x y hfb hfe hfi fun q hq => hall q (List.mem_append_right _ hq)

theorem finishScan_state_ne_mashed {doc : Str} {p : EndPat} {expected : Option Str}
    {st : ScanSt} (hok : StOk expected st) : (finishScan doc p st).state ≠ .Mashed := by
  obtain ⟨hok1, hok2, hok3, hok4, hok5⟩ := hok
  cases hfb : st.firstBegin with
  | none =>
    cases hes : endSearchFrom p doc 0 with
    | none => simp [finishScan, hfb, hes, mkInfo]
    | some i => simp [finishScan, hfb, hes, mkInfo]
  | some fb =>
    cases hfe : st.firstEnd with
    | none => simp [finishScan, hfb, hfe, mkInfo]
    | some fe =>
      simp only [finishScan, hfb, hfe]
      exact hok2

theorem outerList_not_mashed {doc : Str} {p : EndPat} {expected : Option Str} {fp : Str → Str} :
    ∀ prs (st : ScanSt), StOk expected st →
      (∀ q ∈ flattenPairs prs, validB doc expected fp q.1 q.2 = false) →
      (outerList doc p expected fp prs st).state ≠ .Mashed := by
  intro prs
  induction prs with
  | nil => intro st hok hall; exact finishScan_state_ne_mashed hok
  | cons q rest ih =>
    obtain ⟨bo, el⟩ := q
    intro st hok hall
    rw [flattenPairs_cons] at hall
    simp only [outerList]
    cases hil : innerList doc expected fp bo el (recordBegin st bo) with
    | inl eo =>
      exfalso
      rw [innerList_inl_iff] at hil
      have hvalid := List.find?_some hil
      have hinvalid := hall (bo, eo)
        (List.mem_append_left _ (List.mem_map_of_mem _ (List.mem_of_find?_eq_some hil)))
      rw [hinvalid] at hvalid
      cases hvalid
    | inr st2 =>
      have hok2 := (innerList_inr_stOk el _ _ hil (recordBegin_stOk hok bo)).1
      exact ih st2 hok2 fun q hq => hall q (List.mem_append_right _ hq)

theorem outerList_mashed_of_find {doc : Str} {p : EndPat} {expected : Option Str}
    {fp : Str → Str} {bo : Occ} {eo : EndOcc} :
    ∀ prs (st : ScanSt),
      (flattenPairs prs).find? (fun q => validB doc expected fp q.1 q.2) = some (bo, eo) →
      outerList doc p expected fp prs st = mkInfo .Mashed (some bo) (some eo) := by
  intro prs
  induction prs with
  | nil => intro st h; simp [flattenPairs] at h
  | cons q rest ih =>
    obtain ⟨bo2, el⟩ := q
    intro st h
    rw [flattenPairs_cons, List.find?_append] at h
    simp only [outerList]
    have hmapfind : (el.map fun eo => (bo2, eo)).find? (fun q => validB doc expected fp q.1 q.2) =
        (el.find? fun x => validB doc expected fp bo2 x).map fun eo => (bo2, eo) := by
      rw [List.find?_map]
      rfl
    cases hf : el.find? fun x => validB doc expected fp bo2 x with
    | some x =>
      rw [hmapfind, hf] at h
      have h2 : (some (bo2, x) : Option (Occ × EndOcc)) = some (bo, eo) := h
      simp only [Option.some.injEq, Prod.mk.injEq] at h2
      obtain ⟨rfl, rfl⟩ := h2
      rw [(innerList_inl_iff _ _ _).mpr hf]
    | none =>
      rw [hmapfind, hf] at h
      have h2 : (flattenPairs rest).find?
          (fun q => validB doc expected fp q.1 q.2) = some (bo, eo) := h
      cases hil : innerList doc expected fp bo2 el (recordBegin st bo2) with
      | inl x =>
        rw [innerList_inl_iff] at hil
        rw [hil] at hf
        cases hf
      | inr st2 => exact ih st2 h2

/-! ### The scan finds a cleanly inserted block -/

theorem scan_finds_inserted {X b P pre post Y e : Str} {expected : Option Str}
    {fp : Str → Str} (hep : mkEndPat e = ⟨pre, post, true⟩)
    (hfp40 : (fp P).length = FINGERPRINT_VALUE_IN_HEX_LENGTH)
    (hfphex : (fp P).all isHexDigit = true)
    (hexp : expected = none ∨ expected = some P)
    {doc : Str} (hdoc : doc = X ++ (b ++ (P ++ (pre ++ (fp P ++ (post ++ Y))))))
    (h1 : ∀ i, i < X.length → matchAt doc b i = false)
    (h2 : ∀ i, X.length + b.length ≤ i → i < X.length + b.length + P.length →
      endMatchAt ⟨pre, post, true⟩ doc i = false)
    {ofuel ifuel : Nat} (hof : 1 ≤ ofuel) (hif : 1 ≤ ifuel) :
    getMashInfoF ofuel ifuel doc b expected e fp =
      some (mkInfo .Mashed (some ⟨X.length, X.length + b.length⟩)
        (some ⟨X.length + b.length + P.length,
          X.length + b.length + P.length + endMatchLen (⟨pre, post, true⟩ : EndPat),
          some (fp P)⟩)) := by
  subst hdoc
  have hlenD : (X ++ (b ++ (P ++ (pre ++ (fp P ++ (post ++ Y)))))).length =
      X.length + b.length + P.length + pre.length + (fp P).length + post.length + Y.length := by
    simp
    omega
  have hmb : matchAt (X ++ (b ++ (P ++ (pre ++ (fp P ++ (post ++ Y)))))) b X.length = true :=
    matchAt_append rfl
  have hidx : indexOfFrom (X ++ (b ++ (P ++ (pre ++ (fp P ++ (post ++ Y)))))) b 0 =
      some X.length := by
    rw [indexOfFrom_eq_some_iff]
    refine ⟨by omega, by omega, hmb, ?_⟩
    intro k hk1 hk2
    exact h1 k hk2
  have hre : X ++ (b ++ (P ++ (pre ++ (fp P ++ (post ++ Y))))) =
      (X ++ (b ++ P)) ++ (pre ++ (fp P ++ (post ++ Y))) := by
    simp [List.append_assoc]
  have hlenXbP : (X ++ (b ++ P)).length = X.length + b.length + P.length := by
    simp
    omega
  have hem := @endMatchAt_append (X ++ (b ++ P)) pre (fp P) post Y hfp40 hfphex
  have hemT : endMatchAt ⟨pre, post, true⟩ (X ++ (b ++ (P ++ (pre ++ (fp P ++ (post ++ Y))))))
      (X.length + b.length + P.length) = true := by
    rw [hre, ← hlenXbP]
    exact hem.1
  have hcapT : endCapture ⟨pre, post, true⟩ (X ++ (b ++ (P ++ (pre ++ (fp P ++ (post ++ Y))))))
      (X.length + b.length + P.length) = some (fp P) := by
    rw [hre, ← hlenXbP]
    exact hem.2
  have hsearch : endSearchFrom ⟨pre, post, true⟩
      (X ++ (b ++ (P ++ (pre ++ (fp P ++ (post ++ Y)))))) (X.length + b.length) =
      some (X.length + b.length + P.length) := by
    rw [endSearchFrom_eq_some_iff]
    refine ⟨by omega, by omega, hemT, ?_⟩
    intro k hk1 hk2
    refine h2 k ?_ hk2
    omega
  have hdrop : (X ++ (b ++ (P ++ (pre ++ (fp P ++ (post ++ Y)))))).drop
      (X.length + b.length) = P ++ (pre ++ (fp P ++ (post ++ Y))) := by
    have hre2 : X ++ (b ++ (P ++ (pre ++ (fp P ++ (post ++ Y))))) =
        (X ++ b) ++ (P ++ (pre ++ (fp P ++ (post ++ Y)))) := by
      simp [List.append_assoc]
    rw [hre2, List.drop_left' (by simp)]
  have hpot : ∀ (t2 : Nat) (c : Option Str),
      potentialText (X ++ (b ++ (P ++ (pre ++ (fp P ++ (post ++ Y))))))
        ⟨X.length, X.length + b.length⟩ ⟨X.length + b.length + P.length, t2, c⟩ = P := by
    intro t2 c
    show ((X ++ (b ++ (P ++ (pre ++ (fp P ++ (post ++ Y)))))).drop
      (X.length + b.length)).take (X.length + b.length + P.length - (X.length + b.length)) = P
    rw [hdrop]
    have harith : X.length + b.length + P.length - (X.length + b.length) = P.length := by omega
    rw [harith, List.take_left]
  have htam : tamperedB (X ++ (b ++ (P ++ (pre ++ (fp P ++ (post ++ Y)))))) expected
      ⟨X.length, X.length + b.length⟩
      ⟨X.length + b.length + P.length,
        X.length + b.length + P.length + endMatchLen (⟨pre, post, true⟩ : EndPat),
        endCapture ⟨pre, post, true⟩ (X ++ (b ++ (P ++ (pre ++ (fp P ++ (post ++ Y))))))
          (X.length + b.length + P.length)⟩ = false := by
    rcases hexp with rfl | rfl
    · rfl
    · unfold tamperedB
      rw [hpot]
      simp
  have hfpi : fpInvalidB (X ++ (b ++ (P ++ (pre ++ (fp P ++ (post ++ Y)))))) fp
      ⟨X.length, X.length + b.length⟩
      ⟨X.length + b.length + P.length,
        X.length + b.length + P.length + endMatchLen (⟨pre, post, true⟩ : EndPat),
        endCapture ⟨pre, post, true⟩ (X ++ (b ++ (P ++ (pre ++ (fp P ++ (post ++ Y))))))
          (X.length + b.length + P.length)⟩ = false := by
    unfold fpInvalidB
    rw [hpot]
    show decide (endCapture ⟨pre, post, true⟩
      (X ++ (b ++ (P ++ (pre ++ (fp P ++ (post ++ Y)))))) (X.length + b.length + P.length) ≠
        some (fp P)) = false
    rw [hcapT]
    simp
  have hvalid : validB (X ++ (b ++ (P ++ (pre ++ (fp P ++ (post ++ Y)))))) expected fp
      ⟨X.length, X.length + b.length⟩
      ⟨X.length + b.length + P.length,
        X.length + b.length + P.length + endMatchLen (⟨pre, post, true⟩ : EndPat),
        endCapture ⟨pre, post, true⟩ (X ++ (b ++ (P ++ (pre ++ (fp P ++ (post ++ Y))))))
          (X.length + b.length + P.length)⟩ = true := by
    unfold validB
    rw [htam, hfpi]
    rfl
  have hinner : ∀ (k : Nat) (st : ScanSt),
      innerF (X ++ (b ++ (P ++ (pre ++ (fp P ++ (post ++ Y)))))) ⟨pre, post, true⟩ expected fp
        ⟨X.length, X.length + b.length⟩ (k + 1) (X.length + b.length) st =
        some (Sum.inl ⟨X.length + b.length + P.length,
          X.length + b.length + P.length + endMatchLen (⟨pre, post, true⟩ : EndPat),
          endCapture ⟨pre, post, true⟩ (X ++ (b ++ (P ++ (pre ++ (fp P ++ (post ++ Y))))))
            (X.length + b.length + P.length)⟩) := by
    intro k st
    simp only [innerF, hsearch]
    rw [if_pos hvalid]
  obtain ⟨o1, rfl⟩ : ∃ k, ofuel = k + 1 := ⟨ofuel - 1, by omega⟩
  obtain ⟨i1, rfl⟩ : ∃ k, ifuel = k + 1 := ⟨ifuel - 1, by omega⟩
  unfold getMashInfoF
  rw [hep]
  simp only [outerF, hidx]
  rw [hinner i1 _, hcapT]

/-! ### The dispatch of `mash` on the scan result -/

theorem mashF_of_unmashed {ofuel ifuel : Nat} {D b src e : Str} {fp : Str → Str}
    {info : MashInfo} (hscan : getMashInfoF ofuel ifuel D b none e fp = some info)
    (hstate : info.state = .Unmashed) :
    mashF ofuel ifuel D b src e fp = some (appendText D b src e fp) := by
  obtain ⟨s, f1, f2, f3, f4⟩ := info
  cases hstate
  unfold mashF
  rw [hscan]
  rfl

theorem mashF_of_beginTagMissing {ofuel ifuel : Nat} {D b src e : Str} {fp : Str → Str}
    {info : MashInfo} {i : Nat}
    (hscan : getMashInfoF ofuel ifuel D b none e fp = some info)
    (hstate : info.state = .BeginTagMissing) (hee : info.endOfEndTagIndex = some i) :
    mashF ofuel ifuel D b src e fp = some (insertText D i b src e fp) := by
  obtain ⟨s, f1, f2, f3, f4⟩ := info
  cases hstate
  cases hee
  unfold mashF
  rw [hscan]
  rfl

theorem mashF_of_endTagMissing {ofuel ifuel : Nat} {D b src e : Str} {fp : Str → Str}
    {info : MashInfo} {i : Nat}
    (hscan : getMashInfoF ofuel ifuel D b none e fp = some info)
    (hstate : info.state = .EndTagMissing) (hbi : info.beginTagIndex = some i) :
    mashF ofuel ifuel D b src e fp = some (insertText D i b src e fp) := by
  obtain ⟨s, f1, f2, f3, f4⟩ := info
  cases hstate
  cases hbi
  unfold mashF
  rw [hscan]
  rfl

theorem mashF_of_fingerprintInvalid {ofuel ifuel : Nat} {D b src e : Str} {fp : Str → Str}
    {info : MashInfo} {i : Nat}
    (hscan : getMashInfoF ofuel ifuel D b none e fp = some info)
    (hstate : info.state = .FingerprintInvalid) (hbi : info.beginTagIndex = some i) :
    mashF ofuel ifuel D b src e fp = some (insertText D i b src e fp) := by
  obtain ⟨s, f1, f2, f3, f4⟩ := info
  cases hstate
  cases hbi
  unfold mashF
  rw [hscan]
  rfl

theorem mashF_of_mashed {ofuel ifuel : Nat} {D b src e : Str} {fp : Str → Str}
    {info : MashInfo} {bi ee : Nat}
    (hscan : getMashInfoF ofuel ifuel D b none e fp = some info)
    (hstate : info.state = .Mashed) (hbi : info.beginTagIndex = some bi)
    (hee : info.endOfEndTagIndex = some ee) :
    mashF ofuel ifuel D b src e fp =
      some (insertText (D.take bi ++ D.drop ee) bi b src e fp) := by
  obtain ⟨s, f1, f2, f3, f4⟩ := info
  cases hstate
  cases hbi
  cases hee
  unfold mashF
  rw [hscan]
  rfl

theorem mashF_isSome_of_scan {ofuel ifuel : Nat} {D b src e : Str} {fp : Str → Str}
    {info : MashInfo} (hscan : getMashInfoF ofuel ifuel D b none e fp = some info) :
    (mashF ofuel ifuel D b src e fp).isSome = true := by
  have hw := getMashInfoF_wf hscan
  cases hstate : info.state with
  | Unmashed => rw [mashF_of_unmashed hscan hstate]; rfl
  | BeginTagMissing =>
    simp only [InfoWF, hstate] at hw
    obtain ⟨i, -, -, -, hinfoeq⟩ := hw
    rw [mashF_of_beginTagMissing hscan hstate (by rw [hinfoeq]; rfl)]
    rfl
  | EndTagMissing =>
    simp only [InfoWF, hstate] at hw
    obtain ⟨bo, -, -, -, hinfoeq⟩ := hw
    rw [mashF_of_endTagMissing hscan hstate (by rw [hinfoeq]; rfl)]
    rfl
  | FingerprintInvalid =>
    simp only [InfoWF, hstate] at hw
    obtain ⟨bo, eo, -, -, -, hinfoeq⟩ := hw
    rw [mashF_of_fingerprintInvalid hscan hstate (by rw [hinfoeq]; rfl)]
    rfl
  | SourceTextTampered =>
    simp only [InfoWF, hstate] at hw
    simp at hw
  | Mashed =>
    simp only [InfoWF, hstate] at hw
    obtain ⟨bo, eo, hinfoeq, -⟩ := hw
    rw [mashF_of_mashed hscan hstate (by rw [hinfoeq]; rfl) (by rw [hinfoeq]; rfl)]
    rfl

/-! ### Soundness of the nested enumeration -/

theorem zipEnds_mem {doc : Str} {p : EndPat} {ifuel : Nat} :
    ∀ bl prs, zipEnds p doc ifuel bl = some prs →
      ∀ q ∈ prs, q.1 ∈ bl ∧ endOccsF p doc ifuel q.1.endIndex = some q.2 := by
  intro bl
  induction bl with
  | nil =>
    intro prs h q hq
    simp only [zipEnds, Option.some.injEq] at h
    subst h
    cases hq
  | cons bo rest ih =>
    intro prs h q hq
    simp only [zipEnds, Option.bind_eq_some, Option.map_eq_some'] at h
    obtain ⟨el, hel, tl, htl, rfl⟩ := h
    rcases List.mem_cons.mp hq with rfl | hmem
    · exact ⟨List.mem_cons_self _ _, hel⟩
    · have := ih tl htl q hmem
      exact ⟨List.mem_cons_of_mem _ this.1, this.2⟩

/-! ### Claim theorems -/

/-- C2: when `_getMashInfo` (with no expected payload, as `mash` calls it)
classifies the document `Mashed` with offsets `beginTagIndex = bi` and
`endOfEndTagIndex = ee`, `mash` returns the document with the substring
`[bi, ee)` removed and the new mash block (begin tag, payload, materialised
end tag) inserted at `bi`; the prefix before `bi` and the suffix from `ee`
are unchanged and keep their order. -/
theorem c2_replacement (D b P e : Str) (fp : Str → Str) (info : MashInfo) (bi ee : Nat)
    (hinfo : getMashInfo D b none e fp = some info)
    (hstate : info.state = .Mashed)
    (hbi : info.beginTagIndex = some bi)
    (hee : info.endOfEndTagIndex = some ee) :
    mash D b P e fp =
      some (D.take bi ++ b ++ P ++ replaceFirst e FINGERPRINT_PLACEHOLDER (fp P) ++
        D.drop ee) := by
  unfold getMashInfo at hinfo
  have hw := getMashInfoF_wf hinfo
  simp only [InfoWF, hstate] at hw
  obtain ⟨bo, eo, hinfoeq, hb1, hb2, hb3, he1, he2, he3, he4, he5, he6⟩ := hw
  have hbi2 : bo.index = bi := by
    rw [hinfoeq] at hbi
    simpa [mkInfo] using hbi
  have hee2 : eo.endIndex = ee := by
    rw [hinfoeq] at hee
    simpa [mkInfo] using hee
  subst hbi2
  subst hee2
  unfold mash
  rw [mashF_of_mashed hinfo hstate hbi hee]
  have htk : (D.take bo.index ++ D.drop eo.endIndex).take bo.index = D.take bo.index :=
    List.take_left' (by rw [List.length_take]; omega)
  have hdr : (D.take bo.index ++ D.drop eo.endIndex).drop bo.index = D.drop eo.endIndex :=
    List.drop_left' (by rw [List.length_take]; omega)
  unfold insertText
  rw [htk, hdr]

/-- C2 witness: a concrete document holding a valid mash of "a" is updated
in place to a mash of "b". -/
theorem c2_replacement_witness :
    getMashInfo "pre Ba<86f7e437faa5a7fce15d1ddcb9eaeaea377667b8> post".toList "B".toList none
      eTag fpTest = some (mkInfo .Mashed (some ⟨4, 5⟩) (some ⟨6, 48, some sha1OfA⟩)) ∧
    mash "pre Ba<86f7e437faa5a7fce15d1ddcb9eaeaea377667b8> post".toList "B".toList "b".toList
      eTag fpTest =
      some ("pre Ba<86f7e437faa5a7fce15d1ddcb9eaeaea377667b8> post".toList.take 4 ++
        "B".toList ++ "b".toList ++
        replaceFirst eTag FINGERPRINT_PLACEHOLDER (fpTest "b".toList) ++
        "pre Ba<86f7e437faa5a7fce15d1ddcb9eaeaea377667b8> post".toList.drop 48) :=
  ⟨by decide,
    c2_replacement "pre Ba<86f7e437faa5a7fce15d1ddcb9eaeaea377667b8> post".toList "B".toList
      "b".toList eTag fpTest (mkInfo .Mashed (some ⟨4, 5⟩) (some ⟨6, 48, some sha1OfA⟩)) 4 48
      (by decide) (by decide) (by decide) (by decide)⟩

/-- C4: whichever branch `mash` takes, the produced document is exactly
`base.take idx ++ beginTag ++ payload ++ materialisedEndTag ++ base.drop idx`
for an insertion offset `idx ≤ base.length`, where the materialised end tag
is the template with its first `%fingerprint%` placeholder occurrence
replaced by the digest of the payload. -/
theorem c4_splice (dest b src e : Str) (fp : Str → Str) (ofuel ifuel : Nat) (out : Str)
    (h : mashF ofuel ifuel dest b src e fp = some out) :
    ∃ (base : Str) (idx : Nat), idx ≤ base.length ∧
      out = base.take idx ++ b ++ src ++
        replaceFirst e FINGERPRINT_PLACEHOLDER (fp src) ++ base.drop idx := by
  cases hscan : getMashInfoF ofuel ifuel dest b none e fp with
  | none =>
    unfold mashF at h
    rw [hscan] at h
    cases h
  | some info =>
    have hw := getMashInfoF_wf hscan
    cases hstate : info.state with
    | Unmashed =>
      rw [mashF_of_unmashed hscan hstate] at h
      injection h with h
      exact ⟨dest, dest.length, Nat.le_refl _, by rw [← h]; rfl⟩
    | BeginTagMissing =>
      simp only [InfoWF, hstate] at hw
      obtain ⟨i, -, -, hbound, hinfoeq⟩ := hw
      rw [mashF_of_beginTagMissing hscan hstate (by rw [hinfoeq]; rfl)] at h
      injection h with h
      exact ⟨dest, i + endMatchLen (mkEndPat e), hbound, by rw [← h]; rfl⟩
    | EndTagMissing =>
      simp only [InfoWF, hstate] at hw
      obtain ⟨bo, -, -, hbound, hinfoeq⟩ := hw
      rw [mashF_of_endTagMissing hscan hstate (by rw [hinfoeq]; rfl)] at h
      injection h with h
      exact ⟨dest, bo.index, by omega, by rw [← h]; rfl⟩
    | FingerprintInvalid =>
      simp only [InfoWF, hstate] at hw
      obtain ⟨bo, eo, -, -, hbound, hinfoeq⟩ := hw
      rw [mashF_of_fingerprintInvalid hscan hstate (by rw [hinfoeq]; rfl)] at h
      injection h with h
      exact ⟨dest, bo.index, by omega, by rw [← h]; rfl⟩
    | SourceTextTampered =>
      simp only [InfoWF, hstate] at hw
      simp at hw
    | Mashed =>
      simp only [InfoWF, hstate] at hw
      obtain ⟨bo, eo, hinfoeq, hb1, hb2, hb3, he1, he2, he3, he4, he5, he6⟩ := hw
      rw [mashF_of_mashed hscan hstate (by rw [hinfoeq]; rfl) (by rw [hinfoeq]; rfl)] at h
      injection h with h
      refine ⟨dest.take bo.index ++ dest.drop eo.endIndex, bo.index, ?_, by rw [← h]; rfl⟩
      rw [List.length_append, List.length_take]
      omega

/-- C4 witness: the append branch on a concrete input produces the splice
shape. -/
theorem c4_splice_witness :
    mashF 2 2 "x".toList "B".toList "a".toList eTag fpTest =
      some "xBa<86f7e437faa5a7fce15d1ddcb9eaeaea377667b8>".toList ∧
    ∃ (base : Str) (idx : Nat), idx ≤ base.length ∧
      "xBa<86f7e437faa5a7fce15d1ddcb9eaeaea377667b8>".toList =
        base.take idx ++ "B".toList ++ "a".toList ++
          replaceFirst eTag FINGERPRINT_PLACEHOLDER (fpTest "a".toList) ++ base.drop idx :=
  ⟨by decide,
    c4_splice "x".toList "B".toList "a".toList eTag fpTest 2 2
      "xBa<86f7e437faa5a7fce15d1ddcb9eaeaea377667b8>".toList (by decide)⟩

/-- C6: when the document has no begin-tag occurrence but the end-tag
pattern matches (searched from offset 0), `_getMashInfo` returns
`BeginTagMissing` with the offsets of the first such match, and `mash`
inserts the new mash block at the offset just after that end tag
(`endOfEndTagIndex`), not by appending. -/
theorem c6_begin_tag_missing (D b P e : Str) (fp : Str → Str) (i : Nat)
    (hb : indexOfFrom D b 0 = none)
    (hes : endSearchFrom (mkEndPat e) D 0 = some i) :
    getMashInfo D b none e fp =
      some (mkInfo .BeginTagMissing none
        (some ⟨i, i + endMatchLen (mkEndPat e), endCapture (mkEndPat e) D i⟩)) ∧
    mash D b P e fp = some (insertText D (i + endMatchLen (mkEndPat e)) b P e fp) := by
  have hscan : getMashInfo D b none e fp =
      some (mkInfo .BeginTagMissing none
        (some ⟨i, i + endMatchLen (mkEndPat e), endCapture (mkEndPat e) D i⟩)) := by
    unfold getMashInfo getMashInfoF FUEL
    simp only [outerF, hb]
    simp [finishScan, initSt, hes]
  refine ⟨hscan, ?_⟩
  unfold getMashInfo at hscan
  unfold mash
  exact mashF_of_beginTagMissing hscan rfl rfl

/-- C6 witness: a document that lost its begin tag gets the fresh block
right after the orphaned end tag. -/
theorem c6_begin_tag_missing_witness :
    getMashInfo "<86f7e437faa5a7fce15d1ddcb9eaeaea377667b8>tail".toList "B".toList none eTag
        fpTest =
      some (mkInfo .BeginTagMissing none
        (some ⟨0, 0 + endMatchLen (mkEndPat eTag),
          endCapture (mkEndPat eTag)
            "<86f7e437faa5a7fce15d1ddcb9eaeaea377667b8>tail".toList 0⟩)) ∧
    mash "<86f7e437faa5a7fce15d1ddcb9eaeaea377667b8>tail".toList "B".toList "b".toList eTag
        fpTest =
      some (insertText "<86f7e437faa5a7fce15d1ddcb9eaeaea377667b8>tail".toList
        (0 + endMatchLen (mkEndPat eTag)) "B".toList "b".toList eTag fpTest) :=
  c6_begin_tag_missing "<86f7e437faa5a7fce15d1ddcb9eaeaea377667b8>tail".toList "B".toList
    "b".toList eTag fpTest 0 (by decide) (by decide)

/-- C7: when `_getMashInfo` (no expected payload) yields `EndTagMissing` or
`FingerprintInvalid`, `mash` inserts the new mash block at the offset of the
first begin-tag occurrence (`beginTagIndex`), so the fresh block sits
immediately before the corrupted remnant and the whole remnant
(`D.drop bi`) stays in the result. -/
theorem c7_insert_before (D b P e : Str) (fp : Str → Str) (info : MashInfo)
    (hinfo : getMashInfo D b none e fp = some info)
    (hstate : info.state = .EndTagMissing ∨ info.state = .FingerprintInvalid) :
    ∃ bi, info.beginTagIndex = some bi ∧ indexOfFrom D b 0 = some bi ∧
      mash D b P e fp = some (D.take bi ++ b ++ P ++
        replaceFirst e FINGERPRINT_PLACEHOLDER (fp P) ++ D.drop bi) := by
  unfold getMashInfo at hinfo
  have hw := getMashInfoF_wf hinfo
  rcases hstate with hstate | hstate
  · simp only [InfoWF, hstate] at hw
    obtain ⟨bo, hfo, hf2, hf3, hinfoeq⟩ := hw
    refine ⟨bo.index, by rw [hinfoeq]; rfl, hfo, ?_⟩
    unfold mash
    rw [mashF_of_endTagMissing hinfo hstate (by rw [hinfoeq]; rfl)]
    rfl
  · simp only [InfoWF, hstate] at hw
    obtain ⟨bo, eo, hfo, hf2, hf3, hinfoeq⟩ := hw
    refine ⟨bo.index, by rw [hinfoeq]; rfl, hfo, ?_⟩
    unfold mash
    rw [mashF_of_fingerprintInvalid hinfo hstate (by rw [hinfoeq]; rfl)]
    rfl

/-- C7 witness: a document whose end tag is gone gets the new block inserted
before its begin tag. -/
theorem c7_insert_before_witness :
    getMashInfo "Bzz".toList "B".toList none eTag fpTest =
      some (mkInfo .EndTagMissing (some ⟨0, 1⟩) none) ∧
    (∃ bi, (mkInfo .EndTagMissing (some ⟨0, 1⟩) none).beginTagIndex = some bi ∧
      indexOfFrom "Bzz".toList "B".toList 0 = some bi ∧
      mash "Bzz".toList "B".toList "a".toList eTag fpTest =
        some ("Bzz".toList.take bi ++ "B".toList ++ "a".toList ++
          replaceFirst eTag FINGERPRINT_PLACEHOLDER (fpTest "a".toList) ++
          "Bzz".toList.drop bi)) :=
  ⟨by decide,
    c7_insert_before "Bzz".toList "B".toList "a".toList eTag fpTest
      (mkInfo .EndTagMissing (some ⟨0, 1⟩) none) (by decide) (Or.inl (by decide))⟩

/-- C8: `_getMashInfo` invoked without an expected payload — exactly how the
`mash` entry point invokes it — never classifies the document
`SourceTextTampered`, so the `assert(false)` branch of `mash` is
unreachable. -/
theorem c8_no_tampered (D b e : Str) (fp : Str → Str) (ofuel ifuel : Nat) (info : MashInfo)
    (h : getMashInfoF ofuel ifuel D b none e fp = some info) :
    info.state ≠ .SourceTextTampered := by
  intro hstate
  have hw := getMashInfoF_wf h
  simp only [InfoWF, hstate] at hw
  simp at hw

/-- C8 witness: a concrete payload-free scan is not `SourceTextTampered`. -/
theorem c8_no_tampered_witness :
    getMashInfoF 2 2 "x".toList "B".toList none eTag fpTest =
      some (mkInfo .Unmashed none none) ∧
    (mkInfo .Unmashed none none).state ≠ .SourceTextTampered :=
  ⟨by decide,
    c8_no_tampered "x".toList "B".toList eTag fpTest 2 2 (mkInfo .Unmashed none none)
      (by decide)⟩

/-- C9 counterexample: with an empty begin tag the outer generator never
advances (`indexOf("", i) === i`), so the scan never finishes for any fuel —
`_getMashInfo`, and with it `mash` and `textIsMashed`, diverge on an empty
begin marker, refuting termination "for every string input, including an
empty begin marker". -/
theorem c9_counterexample :
    ¬ MashTerminates [] [] none "e%fingerprint%".toList fpTest ∧
    mash [] [] [] "e%fingerprint%".toList fpTest = none ∧
    textIsMashed [] [] [] "e%fingerprint%".toList fpTest = none := by
  have hidx : indexOfFrom ([] : Str) [] 0 = some 0 := by decide
  have hsrch : endSearchFrom (mkEndPat "e%fingerprint%".toList) ([] : Str) 0 = none := by
    decide
  have key : ∀ (ofuel ifuel : Nat) (st : ScanSt),
      outerF [] [] (mkEndPat "e%fingerprint%".toList) none fpTest ofuel ifuel 0 st = none := by
    intro ofuel
    induction ofuel with
    | zero =>
      intro ifuel st
      simp only [outerF, hidx]
    | succ ofuel ih =>
      intro ifuel st
      simp only [outerF, hidx, List.length_nil, Nat.add_zero]
      have hin : ∀ st2 : ScanSt,
          innerF [] (mkEndPat "e%fingerprint%".toList) none fpTest ⟨0, 0⟩ ifuel 0 st2 =
            some (Sum.inr st2) := by
        intro st2
        cases ifuel with
        | zero => simp only [innerF, hsrch]
        | succ k => simp only [innerF, hsrch]
      rw [hin]
      exact ih ifuel _
  refine ⟨?_, by decide, by decide⟩
  rintro ⟨ofuel, ifuel, hsome⟩
  unfold getMashInfoF at hsome
  rw [key] at hsome
  simp at hsome

/-- C9 (amended): whenever the begin tag and the end-tag template are both
nonempty, both scanning loops advance at least one position per iteration,
so `_getMashInfo`, `mash` and `textIsMashed` all terminate (canonical fuel
`length + 1` suffices, bounding the work by the document length per loop
level). -/
theorem c9_amended (D b src e : Str) (expected : Option Str) (fp : Str → Str)
    (hb : b ≠ []) (he : e ≠ []) :
    (getMashInfo D b expected e fp).isSome = true ∧
    (mash D b src e fp).isSome = true ∧
    (textIsMashed D b src e fp).isSome = true ∧
    MashTerminates D b expected e fp := by
  have h1 : (getMashInfoF (FUEL D) (FUEL D) D b expected e fp).isSome = true :=
    getMashInfoF_isSome hb he (Nat.le_refl _) (Nat.le_refl _)
  have h2 : (getMashInfoF (FUEL D) (FUEL D) D b none e fp).isSome = true :=
    getMashInfoF_isSome hb he (Nat.le_refl _) (Nat.le_refl _)
  have h3 : (getMashInfoF (FUEL D) (FUEL D) D b (some src) e fp).isSome = true :=
    getMashInfoF_isSome hb he (Nat.le_refl _) (Nat.le_refl _)
  refine ⟨h1, ?_, ?_, ⟨FUEL D, FUEL D, h1⟩⟩
  · cases hscan : getMashInfoF (FUEL D) (FUEL D) D b none e fp with
    | none => rw [hscan] at h2; simp at h2
    | some info => exact mashF_isSome_of_scan hscan
  · unfold textIsMashed textIsMashedF
    cases hscan : getMashInfoF (FUEL D) (FUEL D) D b (some src) e fp with
    | none => rw [hscan] at h3; simp at h3
    | some info => rfl

/-- C9 witness: nonempty markers on a concrete document terminate. -/
theorem c9_amended_witness :
    "B".toList ≠ ([] : Str) ∧ eTag ≠ ([] : Str) ∧
    ((getMashInfo "q".toList "B".toList none eTag fpTest).isSome = true ∧
     (mash "q".toList "B".toList "a".toList eTag fpTest).isSome = true ∧
     (textIsMashed "q".toList "B".toList "a".toList eTag fpTest).isSome = true ∧
     MashTerminates "q".toList "B".toList none eTag fpTest) :=
  ⟨by decide, by decide,
    c9_amended "q".toList "B".toList "a".toList eTag none fpTest (by decide) (by decide)⟩

/-- C5 counterexample: the document "b" holds no begin tag "bb" and no end
match, and `mash` does append the new block at the end, but the result is
NOT mash-detected: the greedy begin-tag scan finds "bb" at offset 0
(spanning the old text and the inserted tag), skips the real inserted tag,
and the block fails validation — refuting "the result is mash-detected". -/
theorem c5_counterexample :
    indexOfFrom "b".toList "bb".toList 0 = none ∧
    endSearchFrom (mkEndPat "(%fingerprint%)".toList) "b".toList 0 = none ∧
    mash "b".toList "bb".toList [] "(%fingerprint%)".toList fpTest =
      some "bbb(da39a3ee5e6b4b0d3255bfef95601890afd80709)".toList ∧
    textIsMashed "bbb(da39a3ee5e6b4b0d3255bfef95601890afd80709)".toList "bb".toList []
      "(%fingerprint%)".toList fpTest = some false := by
  refine ⟨by decide, by decide, by decide, by decide⟩

/-- C5 (amended): for a document with no begin-tag occurrence and no
end-pattern match, `isMashed` is false for every payload and `mash` appends
the new block at the very end; the appended result is mash-detected for the
payload provided the inserted block does not interfere with the old text —
no begin-tag match starts strictly inside the old text and no end-pattern
match starts inside the inserted begin tag or payload. -/
theorem c5_amended (D b P e pre post : Str) (fp : Str → Str)
    (hb : indexOfFrom D b 0 = none)
    (hes : endSearchFrom (mkEndPat e) D 0 = none)
    (hep : mkEndPat e = ⟨pre, post, true⟩)
    (hfp40 : (fp P).length = FINGERPRINT_VALUE_IN_HEX_LENGTH)
    (hfphex : (fp P).all isHexDigit = true)
    (h1 : ∀ i, i < D.length → matchAt (D ++ (b ++ (P ++ (pre ++ (fp P ++ post))))) b i = false)
    (h2 : ∀ i, i < D.length + b.length + P.length → D.length + b.length ≤ i →
      endMatchAt ⟨pre, post, true⟩ (D ++ (b ++ (P ++ (pre ++ (fp P ++ post))))) i = false) :
    (∀ Q, textIsMashed D b Q e fp = some false) ∧
    mash D b P e fp = some (D ++ (b ++ (P ++ (pre ++ (fp P ++ post))))) ∧
    textIsMashed (D ++ (b ++ (P ++ (pre ++ (fp P ++ post))))) b P e fp = some true := by
  have hunm : ∀ s? : Option Str,
      getMashInfoF (FUEL D) (FUEL D) D b s? e fp = some (mkInfo .Unmashed none none) := by
    intro s?
    unfold getMashInfoF FUEL
    simp only [outerF, hb]
    simp [finishScan, initSt, hes]
  refine ⟨?_, ?_, ?_⟩
  · intro Q
    unfold textIsMashed textIsMashedF
    rw [hunm (some Q)]
    rfl
  · unfold mash
    rw [mashF_of_unmashed (hunm none) rfl]
    unfold appendText insertText
    rw [List.take_length, List.drop_length, replaceFirst_of_mkEndPat hep]
    simp [List.append_assoc]
  · have h2' : ∀ i, D.length + b.length ≤ i → i < D.length + b.length + P.length →
        endMatchAt ⟨pre, post, true⟩ (D ++ (b ++ (P ++ (pre ++ (fp P ++ post))))) i = false :=
      fun i ha hl => h2 i hl ha
    have hfuel : (1 : Nat) ≤ FUEL (D ++ (b ++ (P ++ (pre ++ (fp P ++ post))))) := by
      unfold FUEL
      omega
    have hscan := @scan_finds_inserted D b P pre post ([] : Str) e (some P) fp hep hfp40
      hfphex (Or.inr rfl) (D ++ (b ++ (P ++ (pre ++ (fp P ++ post))))) (by simp) h1 h2'
      (FUEL (D ++ (b ++ (P ++ (pre ++ (fp P ++ post))))))
      (FUEL (D ++ (b ++ (P ++ (pre ++ (fp P ++ post)))))) hfuel hfuel
    unfold textIsMashed textIsMashedF
    rw [hscan]
    rfl

/-- C5 witness: a clean append on a concrete document is mash-detected. -/
theorem c5_amended_witness :
    textIsMashed "x".toList "B".toList "zzz".toList eTag fpTest = some false ∧
    mash "x".toList "B".toList "a".toList eTag fpTest =
      some ("x".toList ++ ("B".toList ++ ("a".toList ++
        ("<".toList ++ (fpTest "a".toList ++ ">".toList))))) ∧
    textIsMashed ("x".toList ++ ("B".toList ++ ("a".toList ++
      ("<".toList ++ (fpTest "a".toList ++ ">".toList))))) "B".toList "a".toList eTag
      fpTest = some true := by
  have h := c5_amended "x".toList "B".toList "a".toList eTag "<".toList ">".toList fpTest
    (by decide) (by decide) (by decide) (by decide) (by decide) (by decide) (by decide)
  exact ⟨h.1 "zzz".toList, h.2.1, h.2.2⟩

/-- C1 counterexample: begin marker "aa", document "a", payload "" and a
placeholder-bearing template: after `mash`, the result is not mash-detected
for the payload, because the greedy begin-tag scan matches "aa" across the
boundary between the old document and the inserted tag. -/
theorem c1_counterexample :
    indexOfFrom "(%fingerprint%)".toList FINGERPRINT_PLACEHOLDER 0 = some 1 ∧
    mash "a".toList "aa".toList [] "(%fingerprint%)".toList fpTest =
      some "aaa(da39a3ee5e6b4b0d3255bfef95601890afd80709)".toList ∧
    textIsMashed "aaa(da39a3ee5e6b4b0d3255bfef95601890afd80709)".toList "aa".toList []
      "(%fingerprint%)".toList fpTest = some false := by
  refine ⟨by decide, by decide, by decide⟩

/-- C1 (amended): when the merged document splits as
`X ++ b ++ P ++ pre ++ fp(P) ++ post ++ Y` (the block `mash` inserted),
no begin-tag match starts strictly before the inserted begin tag and no
end-pattern match starts inside the inserted tag or payload, then the merge
result is mash-detected for `P`, and merging the same payload again returns
the identical document — replacement, not duplication, so the mash-block
count cannot grow. -/
theorem c1_amended (D b P e X Y pre post out : Str) (fp : Str → Str)
    (hep : mkEndPat e = ⟨pre, post, true⟩)
    (hfp40 : (fp P).length = FINGERPRINT_VALUE_IN_HEX_LENGTH)
    (hfphex : (fp P).all isHexDigit = true)
    (hm : mash D b P e fp = some out)
    (hshape : out = X ++ (b ++ (P ++ (pre ++ (fp P ++ (post ++ Y))))))
    (h1 : ∀ i, i < X.length → matchAt out b i = false)
    (h2 : ∀ i, i < X.length + b.length + P.length → X.length + b.length ≤ i →
      endMatchAt ⟨pre, post, true⟩ out i = false) :
    textIsMashed out b P e fp = some true ∧ mash out b P e fp = some out := by
  have h2' : ∀ i, X.length + b.length ≤ i → i < X.length + b.length + P.length →
      endMatchAt ⟨pre, post, true⟩ out i = false := fun i ha hl => h2 i hl ha
  have hfuel : (1 : Nat) ≤ FUEL out := by unfold FUEL; omega
  have hsP := scan_finds_inserted hep hfp40 hfphex (Or.inr rfl) hshape h1 h2' hfuel hfuel
  have hsN := scan_finds_inserted hep hfp40 hfphex (Or.inl rfl) hshape h1 h2' hfuel hfuel
  constructor
  · unfold textIsMashed textIsMashedF
    rw [hsP]
    rfl
  · unfold mash
    rw [mashF_of_mashed hsN rfl rfl rfl]
    have htake : out.take X.length = X := by
      rw [hshape]
      exact List.take_left _ _
    have hdropped : out.drop (X.length + b.length + P.length +
        endMatchLen (⟨pre, post, true⟩ : EndPat)) = Y := by
      rw [hshape]
      have hre : X ++ (b ++ (P ++ (pre ++ (fp P ++ (post ++ Y))))) =
          (X ++ (b ++ (P ++ (pre ++ (fp P ++ post))))) ++ Y := by
        simp [List.append_assoc]
      rw [hre]
      refine List.drop_left' ?_
      simp only [List.length_append, endMatchLen_fp]
      rw [hfp40]
      omega
    rw [htake, hdropped]
    unfold insertText
    rw [List.take_left, List.drop_left, replaceFirst_of_mkEndPat hep, hshape]
    simp [List.append_assoc]

/-- C1 witness: a concrete merge result is mash-detected and re-merging the
same payload returns the identical document. -/
theorem c1_amended_witness :
    textIsMashed "xBb<e9d71f5ee7c92d6dc9e92ffdad17b8bd49418f98>".toList "B".toList "b".toList
      eTag fpTest = some true ∧
    mash "xBb<e9d71f5ee7c92d6dc9e92ffdad17b8bd49418f98>".toList "B".toList "b".toList eTag
      fpTest = some "xBb<e9d71f5ee7c92d6dc9e92ffdad17b8bd49418f98>".toList :=
  c1_amended "x".toList "B".toList "b".toList eTag "x".toList [] "<".toList ">".toList
    "xBb<e9d71f5ee7c92d6dc9e92ffdad17b8bd49418f98>".toList fpTest
    (by decide) (by decide) (by decide) (by decide) (by decide) (by decide) (by decide)

/-- C3: relative to the nested enumeration (begin-tag occurrences outer,
left to right; end-tag occurrences after each begin tag inner),
`_getMashInfo` returns `Mashed` with the offsets of the FIRST pair in that
order that passes both validations, ignoring all later pairs; and when no
pair validates the state is never `Mashed`.  In particular marker text
inside an earlier candidate payload cannot make the scan misreport block
boundaries — the first fingerprint-consistent pair wins. -/
theorem c3_first_valid (doc b e : Str) (expected : Option Str) (fp : Str → Str)
    (prs : List (Occ × List EndOcc)) (ofuel ifuel : Nat)
    (h : pairsEnum doc b e ofuel ifuel = some prs) :
    (∀ (bo : Occ) (eo : EndOcc),
      (flattenPairs prs).find? (fun q => validB doc expected fp q.1 q.2) = some (bo, eo) →
      getMashInfoF ofuel ifuel doc b expected e fp =
        some (mkInfo .Mashed (some bo) (some eo))) ∧
    ((flattenPairs prs).find? (fun q => validB doc expected fp q.1 q.2) = none →
      ∀ info, getMashInfoF ofuel ifuel doc b expected e fp = some info →
        info.state ≠ .Mashed) := by
  constructor
  · intro bo eo hfind
    rw [getMashInfoF_of_pairsEnum h]
    rw [outerList_mashed_of_find prs initSt hfind]
  · intro hfind info hinfo
    rw [getMashInfoF_of_pairsEnum h] at hinfo
    injection hinfo with hinfo
    rw [← hinfo]
    refine outerList_not_mashed prs initSt (initSt_stOk expected) ?_
    intro q hq
    exact Bool.eq_false_iff.mpr (List.find?_eq_none.mp hfind q hq)

/-- C3 witness: in a document with a tampered first block and a valid second
block for payload "b", the first valid pair in scan order is the second
block, and `_getMashInfo` reports exactly its offsets. -/
theorem c3_first_valid_witness :
    pairsEnum ("Ba<".toList ++ sha1OfA ++ ">Bb<".toList ++ sha1OfB ++ ">".toList) "B".toList
      eTag 89 89 =
      some [(⟨0, 1⟩, [⟨2, 44, some sha1OfA⟩, ⟨46, 88, some sha1OfB⟩]),
            (⟨44, 45⟩, [⟨46, 88, some sha1OfB⟩])] ∧
    (flattenPairs [(⟨0, 1⟩, [⟨2, 44, some sha1OfA⟩, ⟨46, 88, some sha1OfB⟩]),
        (⟨44, 45⟩, [⟨46, 88, some sha1OfB⟩])]).find?
      (fun q => validB ("Ba<".toList ++ sha1OfA ++ ">Bb<".toList ++ sha1OfB ++ ">".toList)
        (some "b".toList) fpTest q.1 q.2) = some (⟨44, 45⟩, ⟨46, 88, some sha1OfB⟩) ∧
    getMashInfoF 89 89 ("Ba<".toList ++ sha1OfA ++ ">Bb<".toList ++ sha1OfB ++ ">".toList)
      "B".toList (some "b".toList) eTag fpTest =
      some (mkInfo .Mashed (some ⟨44, 45⟩) (some ⟨46, 88, some sha1OfB⟩)) := by
  refine ⟨by decide, by decide, ?_⟩
  exact (c3_first_valid ("Ba<".toList ++ sha1OfA ++ ">Bb<".toList ++ sha1OfB ++ ">".toList)
    "B".toList eTag (some "b".toList) fpTest
    [(⟨0, 1⟩, [⟨2, 44, some sha1OfA⟩, ⟨46, 88, some sha1OfB⟩]),
     (⟨44, 45⟩, [⟨46, 88, some sha1OfB⟩])] 89 89 (by decide)).1
    ⟨44, 45⟩ ⟨46, 88, some sha1OfB⟩ (by decide)

/-- C10 counterexample: a document can contain a begin-tag occurrence
followed by a materialised end marker whose embedded fingerprint is the
uppercase rendering of the correct digest of the enclosed payload "a"
(recognised as an occurrence — the pattern accepts either case), and still
be mash-detected for that payload, because an earlier fully valid block
wins; so "hence isMashed is false for that payload" fails as a statement
about every such document. -/
theorem c10_counterexample :
    matchAt ("Ba<".toList ++ sha1OfA ++ ">Ba<".toList ++ upHex sha1OfA ++ ">".toList)
      "B".toList 44 = true ∧
    endMatchAt (mkEndPat eTag)
      ("Ba<".toList ++ sha1OfA ++ ">Ba<".toList ++ upHex sha1OfA ++ ">".toList) 46 = true ∧
    endCapture (mkEndPat eTag)
      ("Ba<".toList ++ sha1OfA ++ ">Ba<".toList ++ upHex sha1OfA ++ ">".toList) 46 =
      some (upHex (fpTest "a".toList)) ∧
    upHex (fpTest "a".toList) ≠ fpTest "a".toList ∧
    (("Ba<".toList ++ sha1OfA ++ ">Ba<".toList ++ upHex sha1OfA ++ ">".toList).drop 45).take 1 =
      "a".toList ∧
    textIsMashed ("Ba<".toList ++ sha1OfA ++ ">Ba<".toList ++ upHex sha1OfA ++ ">".toList)
      "B".toList "a".toList eTag fpTest = some true := by
  refine ⟨by decide, by decide, by decide, by decide, by decide, by decide⟩

/-- C10 (amended): in a document of the shape
`b ++ P ++ pre ++ U ++ post` — one begin tag at the front and a single
end-marker occurrence whose embedded 40-hex capture `U` (for example the
uppercase rendering of `fp P`) differs from the digest `fp P` by exact
string comparison — the end marker IS recognised as an occurrence, the scan
(with expected payload `P`) classifies the document `FingerprintInvalid`
rather than `Mashed`, and `isMashed` is false for `P`. -/
theorem c10_amended (b P e pre post U : Str) (fp : Str → Str)
    (hb : b ≠ [])
    (hep : mkEndPat e = ⟨pre, post, true⟩)
    (hU40 : U.length = FINGERPRINT_VALUE_IN_HEX_LENGTH)
    (hUhex : U.all isHexDigit = true)
    (hUne : U ≠ fp P)
    (huniq : ∀ i, i ≤ (b ++ (P ++ (pre ++ (U ++ post)))).length →
      endMatchAt ⟨pre, post, true⟩ (b ++ (P ++ (pre ++ (U ++ post)))) i = true →
      i = b.length + P.length) :
    endMatchAt ⟨pre, post, true⟩ (b ++ (P ++ (pre ++ (U ++ post))))
      (b.length + P.length) = true ∧
    getMashInfo (b ++ (P ++ (pre ++ (U ++ post)))) b (some P) e fp =
      some (mkInfo .FingerprintInvalid (some ⟨0, b.length⟩)
        (some ⟨b.length + P.length,
          b.length + P.length + endMatchLen (⟨pre, post, true⟩ : EndPat), some U⟩)) ∧
    textIsMashed (b ++ (P ++ (pre ++ (U ++ post)))) b P e fp = some false := by
  have h40 : FINGERPRINT_VALUE_IN_HEX_LENGTH = 40 := rfl
  have hb1 : 1 ≤ b.length := List.length_pos.mpr hb
  have hLpos : 1 ≤ endMatchLen (⟨pre, post, true⟩ : EndPat) := by
    rw [endMatchLen_fp]
    omega
  have hlenD : (b ++ (P ++ (pre ++ (U ++ post)))).length =
      b.length + P.length + endMatchLen (⟨pre, post, true⟩ : EndPat) := by
    simp only [List.length_append, endMatchLen_fp, hU40]
    omega
  have hre : b ++ (P ++ (pre ++ (U ++ post))) =
      (b ++ P) ++ (pre ++ (U ++ (post ++ []))) := by
    simp [List.append_assoc]
  have hem0 := @endMatchAt_append (b ++ P) pre U post ([] : Str) hU40 hUhex
  have hlenbP : (b ++ P).length = b.length + P.length := by simp
  have hemT : endMatchAt ⟨pre, post, true⟩ (b ++ (P ++ (pre ++ (U ++ post))))
      (b.length + P.length) = true := by
    rw [hre, ← hlenbP]
    exact hem0.1
  have hcapT : endCapture ⟨pre, post, true⟩ (b ++ (P ++ (pre ++ (U ++ post))))
      (b.length + P.length) = some U := by
    rw [hre, ← hlenbP]
    exact hem0.2
  have hmb : matchAt (b ++ (P ++ (pre ++ (U ++ post)))) b 0 = true := by
    rw [matchAt_true_iff, List.drop_zero]
    exact List.take_left _ _
  have hidx0 : indexOfFrom (b ++ (P ++ (pre ++ (U ++ post)))) b 0 = some 0 := by
    rw [indexOfFrom_eq_some_iff]
    exact ⟨by omega, by omega, hmb, fun k hk1 hk2 => by omega⟩
  have hsearch1 : endSearchFrom ⟨pre, post, true⟩ (b ++ (P ++ (pre ++ (U ++ post))))
      b.length = some (b.length + P.length) := by
    rw [endSearchFrom_eq_some_iff]
    refine ⟨by omega, by omega, hemT, ?_⟩
    intro k hk1 hk2
    by_contra hcon
    rw [Bool.not_eq_false] at hcon
    have := huniq k (by omega) hcon
    omega
  have hsearch2 : endSearchFrom ⟨pre, post, true⟩ (b ++ (P ++ (pre ++ (U ++ post))))
      (b.length + P.length + endMatchLen (⟨pre, post, true⟩ : EndPat)) = none := by
    rw [endSearchFrom_eq_none_iff]
    intro k hk1 hk2
    by_contra hcon
    rw [Bool.not_eq_false] at hcon
    have := huniq k hk2 hcon
    omega
  have hocc2 : ∀ f, endOccsF ⟨pre, post, true⟩ (b ++ (P ++ (pre ++ (U ++ post)))) f
      (b.length + P.length + endMatchLen (⟨pre, post, true⟩ : EndPat)) = some [] := by
    intro f
    cases f with
    | zero => simp only [endOccsF, hsearch2]
    | succ k => simp only [endOccsF, hsearch2]
  have hocc1 : endOccsF ⟨pre, post, true⟩ (b ++ (P ++ (pre ++ (U ++ post))))
      (FUEL (b ++ (P ++ (pre ++ (U ++ post))))) b.length =
      some [⟨b.length + P.length,
        b.length + P.length + endMatchLen (⟨pre, post, true⟩ : EndPat),
        endCapture ⟨pre, post, true⟩ (b ++ (P ++ (pre ++ (U ++ post))))
          (b.length + P.length)⟩] := by
    unfold FUEL
    simp only [endOccsF, hsearch1, hocc2, Option.map_some']
  have hblsome : (beginOccsF (b ++ (P ++ (pre ++ (U ++ post)))) b
      (b ++ (P ++ (pre ++ (U ++ post)))).length b.length).isSome = true :=
    beginOccsF_isSome hb _ _ (by omega)
  obtain ⟨bl2, hbl2⟩ := Option.isSome_iff_exists.mp hblsome
  have hblC : beginOccsF (b ++ (P ++ (pre ++ (U ++ post)))) b
      (FUEL (b ++ (P ++ (pre ++ (U ++ post))))) 0 = some (⟨0, b.length⟩ :: bl2) := by
    unfold FUEL
    simp only [beginOccsF, hidx0, Nat.zero_add, hbl2, Option.map_some']
  have hzsome : (zipEnds ⟨pre, post, true⟩ (b ++ (P ++ (pre ++ (U ++ post))))
      (FUEL (b ++ (P ++ (pre ++ (U ++ post))))) bl2).isSome = true :=
    zipEnds_isSome hLpos (by unfold FUEL; omega) bl2
  obtain ⟨prs2, hzp⟩ := Option.isSome_iff_exists.mp hzsome
  have hziphead : zipEnds ⟨pre, post, true⟩ (b ++ (P ++ (pre ++ (U ++ post))))
      (FUEL (b ++ (P ++ (pre ++ (U ++ post))))) (⟨0, b.length⟩ :: bl2) =
      some ((⟨0, b.length⟩,
        [⟨b.length + P.length,
          b.length + P.length + endMatchLen (⟨pre, post, true⟩ : EndPat),
          endCapture ⟨pre, post, true⟩ (b ++ (P ++ (pre ++ (U ++ post))))
            (b.length + P.length)⟩]) :: prs2) := by
    simp only [zipEnds]
    rw [hocc1, Option.some_bind, hzp, Option.map_some']
  have hpairs : pairsEnum (b ++ (P ++ (pre ++ (U ++ post)))) b e
      (FUEL (b ++ (P ++ (pre ++ (U ++ post)))))
      (FUEL (b ++ (P ++ (pre ++ (U ++ post))))) =
      some ((⟨0, b.length⟩,
        [⟨b.length + P.length,
          b.length + P.length + endMatchLen (⟨pre, post, true⟩ : EndPat),
          endCapture ⟨pre, post, true⟩ (b ++ (P ++ (pre ++ (U ++ post))))
            (b.length + P.length)⟩]) :: prs2) := by
    unfold pairsEnum
    rw [hep, hblC, Option.some_bind]
    exact hziphead
  have hscanlist := @getMashInfoF_of_pairsEnum _ _ _ (some P) fp _ _ _ hpairs
  have hpotential : potentialText (b ++ (P ++ (pre ++ (U ++ post)))) ⟨0, b.length⟩
      ⟨b.length + P.length,
        b.length + P.length + endMatchLen (⟨pre, post, true⟩ : EndPat),
        endCapture ⟨pre, post, true⟩ (b ++ (P ++ (pre ++ (U ++ post))))
          (b.length + P.length)⟩ = P := by
    show ((b ++ (P ++ (pre ++ (U ++ post)))).drop b.length).take
      (b.length + P.length - b.length) = P
    rw [List.drop_left]
    have harith : b.length + P.length - b.length = P.length := by omega
    rw [harith]
    exact List.take_left _ _
  have htam0 : tamperedB (b ++ (P ++ (pre ++ (U ++ post)))) (some P) ⟨0, b.length⟩
      ⟨b.length + P.length,
        b.length + P.length + endMatchLen (⟨pre, post, true⟩ : EndPat),
        endCapture ⟨pre, post, true⟩ (b ++ (P ++ (pre ++ (U ++ post))))
          (b.length + P.length)⟩ = false := by
    unfold tamperedB
    rw [hpotential]
    simp
  have hfpi0 : fpInvalidB (b ++ (P ++ (pre ++ (U ++ post)))) fp ⟨0, b.length⟩
      ⟨b.length + P.length,
        b.length + P.length + endMatchLen (⟨pre, post, true⟩ : EndPat),
        endCapture ⟨pre, post, true⟩ (b ++ (P ++ (pre ++ (U ++ post))))
          (b.length + P.length)⟩ = true := by
    unfold fpInvalidB
    rw [hpotential]
    show decide (endCapture ⟨pre, post, true⟩ (b ++ (P ++ (pre ++ (U ++ post))))
      (b.length + P.length) ≠ some (fp P)) = true
    rw [hcapT]
    simp [hUne]
  have hv0 : validB (b ++ (P ++ (pre ++ (U ++ post)))) (some P) fp ⟨0, b.length⟩
      ⟨b.length + P.length,
        b.length + P.length + endMatchLen (⟨pre, post, true⟩ : EndPat),
        endCapture ⟨pre, post, true⟩ (b ++ (P ++ (pre ++ (U ++ post))))
          (b.length + P.length)⟩ = false := by
    unfold validB
    rw [htam0, hfpi0]
    rfl
  have hil0 : innerList (b ++ (P ++ (pre ++ (U ++ post)))) (some P) fp ⟨0, b.length⟩
      [⟨b.length + P.length,
        b.length + P.length + endMatchLen (⟨pre, post, true⟩ : EndPat),
        endCapture ⟨pre, post, true⟩ (b ++ (P ++ (pre ++ (U ++ post))))
          (b.length + P.length)⟩]
      (recordBegin initSt ⟨0, b.length⟩) =
      Sum.inr ⟨some ⟨0, b.length⟩,
        some ⟨b.length + P.length,
          b.length + P.length + endMatchLen (⟨pre, post, true⟩ : EndPat),
          endCapture ⟨pre, post, true⟩ (b ++ (P ++ (pre ++ (U ++ post))))
            (b.length + P.length)⟩, .FingerprintInvalid⟩ := by
    simp only [innerList]
    rw [if_neg (by simp [hv0])]
    rw [htam0, hfpi0]
    rfl
  have hallinv : ∀ q ∈ flattenPairs prs2,
      validB (b ++ (P ++ (pre ++ (U ++ post)))) (some P) fp q.1 q.2 = false := by
    intro q hq
    unfold flattenPairs at hq
    rw [List.mem_flatMap] at hq
    obtain ⟨pr, hpr, hq2⟩ := hq
    rw [List.mem_map] at hq2
    obtain ⟨eo2, heo2, heq⟩ := hq2
    subst heq
    obtain ⟨bo2, el2⟩ := pr
    have hz := zipEnds_mem bl2 prs2 hzp (bo2, el2) hpr
    have hend := endOccsF_mem (FUEL (b ++ (P ++ (pre ++ (U ++ post))))) bo2.endIndex el2
      hz.2 eo2 heo2
    have hidx2 : eo2.index = b.length + P.length :=
      huniq eo2.index hend.2.2.2.2 hend.2.2.1
    show validB (b ++ (P ++ (pre ++ (U ++ post)))) (some P) fp bo2 eo2 = false
    by_cases hPeq : potentialText (b ++ (P ++ (pre ++ (U ++ post)))) bo2 eo2 = P
    · have hfpi2 : fpInvalidB (b ++ (P ++ (pre ++ (U ++ post)))) fp bo2 eo2 = true := by
        unfold fpInvalidB
        rw [hPeq, hend.2.1, hidx2, hcapT]
        simp [hUne]
      unfold validB
      rw [hfpi2]
      simp
    · have htam2 : tamperedB (b ++ (P ++ (pre ++ (U ++ post)))) (some P) bo2 eo2 = true := by
        unfold tamperedB
        rw [decide_eq_true_eq]
        exact fun hEq => hPeq hEq.symm
      unfold validB
      rw [htam2]
      rfl
  have houter : outerList (b ++ (P ++ (pre ++ (U ++ post)))) (mkEndPat e) (some P) fp
      ((⟨0, b.length⟩,
        [⟨b.length + P.length,
          b.length + P.length + endMatchLen (⟨pre, post, true⟩ : EndPat),
          endCapture ⟨pre, post, true⟩ (b ++ (P ++ (pre ++ (U ++ post))))
            (b.length + P.length)⟩]) :: prs2) initSt =
      mkInfo .FingerprintInvalid (some ⟨0, b.length⟩)
        (some ⟨b.length + P.length,
          b.length + P.length + endMatchLen (⟨pre, post, true⟩ : EndPat),
          endCapture ⟨pre, post, true⟩ (b ++ (P ++ (pre ++ (U ++ post))))
            (b.length + P.length)⟩) := by
    rw [hep]
    simp only [outerList, hil0]
    rw [outerList_frozen prs2 _ ⟨0, b.length⟩
      ⟨b.length + P.length,
        b.length + P.length + endMatchLen (⟨pre, post, true⟩ : EndPat),
        endCapture ⟨pre, post, true⟩ (b ++ (P ++ (pre ++ (U ++ post))))
          (b.length + P.length)⟩ rfl rfl (by simp) hallinv]
    rfl
  refine ⟨hemT, ?_, ?_⟩
  · unfold getMashInfo
    rw [hscanlist, houter]
    rfl
  · unfold textIsMashed textIsMashedF
    rw [hscanlist, houter]
    rfl

/-- C10 witness: a single block whose embedded fingerprint is the uppercase
rendering of the digest is recognised but classified `FingerprintInvalid`,
and `isMashed` is false. -/
theorem c10_amended_witness :
    endMatchAt ⟨"<".toList, ">".toList, true⟩
      ("Ba<".toList ++ upHex sha1OfA ++ ">".toList) 2 = true ∧
    getMashInfo ("Ba<".toList ++ upHex sha1OfA ++ ">".toList) "B".toList
      (some "a".toList) eTag fpTest =
      some (mkInfo .FingerprintInvalid (some ⟨0, 1⟩)
        (some ⟨2, 2 + endMatchLen (⟨"<".toList, ">".toList, true⟩ : EndPat),
          some (upHex sha1OfA)⟩)) ∧
    textIsMashed ("Ba<".toList ++ upHex sha1OfA ++ ">".toList) "B".toList "a".toList eTag
      fpTest = some false := by
  have h := c10_amended "B".toList "a".toList eTag "<".toList ">".toList (upHex sha1OfA)
    fpTest (by decide) (by decide) (by decide) (by decide) (by decide) (by decide)
  exact h

end Masher
